import Mathlib

/-!
Shallow embedding of the Karger / Karger-Stein minimum-cut repository
(src/src/karger.hpp).  Machine integers (node_t, std::size_t) are modelled
as Nat: all values occurring are array indices, subset sizes bounded by n,
and edge counts, so no overflow behaviour is observable.  The thread-local
mt19937 engine is modelled by an explicit stream of draws (a List Nat);
each uniform_int_distribution{0, m} draw is taken modulo m+1, so every
valid draw sequence is represented.  Out-of-range vector accesses (C++
undefined behaviour) are totalised with List.getD defaults; theorems about
valid executions carry the corresponding range hypotheses.
-/

namespace KargerSpec

/-- Edge of karger.hpp: `struct Edge { node_t tail, head; }`. -/
structure Edge where
  tail : Nat
  head : Nat
deriving DecidableEq

/-- EdgesVectorGraph of karger.hpp: vertex count n and the vector of edges. -/
structure EVGraph where
  n : Nat
  edges : List Edge
deriving DecidableEq

/-- UnionFind::Subset of karger.hpp: `struct Subset { T id, size; }`. -/
structure Subset where
  id : Nat
  size : Nat
deriving DecidableEq

/-- UnionFind of karger.hpp: vector of Subset records plus the live count
nb_subsets of distinct subsets. -/
structure UnionFind where
  subsets : List Subset
  nb_subsets : Nat
deriving DecidableEq

/-- Reading `subsets[x].id` (the parent pointer); out-of-range reads are
totalised as x itself (C++ UB). -/
def par (s : List Subset) (x : Nat) : Nat := (s.getD x ⟨x, 1⟩).id

/-- Reading `subsets[x].size`; out-of-range reads are totalised as 1. -/
def sz (s : List Subset) (x : Nat) : Nat := (s.getD x ⟨x, 1⟩).size

/-- k-fold iteration of the parent pointer: the ancestor chain of x. -/
def pIter (s : List Subset) (k x : Nat) : Nat := (par s)^[k] x

/-- The first while-loop of UnionFind::find
(`while (root != subsets[root].id) root = subsets[root].id;`), with explicit
fuel; fuel s.length is enough on every well-formed state (rootAux_of_hit). -/
def rootAux (s : List Subset) : Nat → Nat → Nat
  | 0, x => x
  | fuel + 1, x => if par s x = x then x else rootAux s fuel (par s x)

/-- The representative root of x computed as by the find loop. -/
def rootD (s : List Subset) (x : Nat) : Nat := rootAux s s.length x

/-- The second while-loop of UnionFind::find (path compression):
`while (subsets[x].id != root) { auto id = subsets[x].id; subsets[x].id = root; x = id; }`. -/
def compressAux : Nat → List Subset → Nat → Nat → List Subset
  | 0, s, _, _ => s
  | fuel + 1, s, x, r =>
    if par s x = r then s
    else compressAux fuel (s.set x ⟨r, sz s x⟩) (par s x) r

/-- UnionFind::find: returns the root and the state after path compression. -/
def UnionFind.find (uf : UnionFind) (x : Nat) : Nat × UnionFind :=
  (rootD uf.subsets x,
    ⟨compressAux uf.subsets.length uf.subsets x (rootD uf.subsets x), uf.nb_subsets⟩)

/-- The body of UnionFind::merge after the two finds, acting on the two
roots i and j: no-op if equal, otherwise union by size (on ties, j goes
under i, as in the source else-branch) and `--nb_subsets`. -/
def mergeRoots (u : UnionFind) (i j : Nat) : UnionFind :=
  if i = j then u
  else if sz u.subsets i < sz u.subsets j then
    ⟨(u.subsets.set i ⟨j, sz u.subsets i⟩).set j
        ⟨par u.subsets j, sz u.subsets j + sz u.subsets i⟩,
      u.nb_subsets - 1⟩
  else
    ⟨(u.subsets.set j ⟨i, sz u.subsets j⟩).set i
        ⟨par u.subsets i, sz u.subsets i + sz u.subsets j⟩,
      u.nb_subsets - 1⟩

/-- UnionFind::merge: `auto const i = find(x); auto const j = find(y);`
(the second find runs on the state compressed by the first), then the
union-by-size attachment. -/
def UnionFind.merge (uf : UnionFind) (x y : Nat) : UnionFind :=
  mergeRoots ((uf.find x).snd.find y).snd (uf.find x).fst ((uf.find x).snd.find y).fst

/-- UnionFind::connected: `find(x) == find(y)`, threading the two
path compressions through the state. -/
def UnionFind.connected (uf : UnionFind) (x y : Nat) : Bool × UnionFind :=
  (((uf.find x).fst == ((uf.find x).snd.find y).fst), ((uf.find x).snd.find y).snd)

/-- The UnionFind(T n) constructor: n singleton subsets ⟨i, 1⟩. -/
def UnionFind.init (n : Nat) : UnionFind :=
  ⟨(List.range n).map (fun i => ⟨i, 1⟩), n⟩

/-- GraphCut of karger.hpp: cut size plus the final DSU. -/
structure GraphCut where
  cut_size : Nat
  uf : UnionFind
deriving DecidableEq

/-- GraphCut::get_partitions: for i in [0, subsets.size()), push i into P
when `subsets[i].id == subsets[0].id` and into Q otherwise.  Note the
source compares the raw stored parent ids, not the roots (find is
non-const and cannot be called on the const member). -/
def GraphCut.get_partitions (c : GraphCut) : List Nat × List Nat :=
  ((List.range c.uf.subsets.length).filter
      (fun i => par c.uf.subsets i == par c.uf.subsets 0),
   (List.range c.uf.subsets.length).filter
      (fun i => !(par c.uf.subsets i == par c.uf.subsets 0)))

/-- One `std::iter_swap(start, start + r)` on the not-yet-consumed suffix:
swap positions 0 and r. -/
def swapFront (l : List Edge) (r : Nat) : List Edge :=
  (l.set 0 (l.getD r ⟨0, 0⟩)).set r (l.getD 0 ⟨0, 0⟩)

/-- Result of the shared contraction loop: final DSU, consumed prefix,
unconsumed suffix, and the remaining random stream. -/
structure LoopOut where
  uf : UnionFind
  consumed : List Edge
  remaining : List Edge
  rand : List Nat
deriving DecidableEq

/-- The contraction loop shared verbatim by karger_union_find (lines 95-98)
and the contract lambda of karger_stein_union_find (lines 119-122):
`for (int m = size(edges) - 1; uf.nb_subsets != k; ++start, --m) {
   iter_swap(start, start + uniform(0, m)); uf.merge(start->tail, start->head); }`.
The cursor is represented by the consumed-prefix / suffix split; the draw in
[0, m] = [0, suffix.length - 1] is rand.headD 0 % suffix.length.  The fuel
argument is passed as the edge count by both callers; running out of edges
with nb_subsets ≠ k is undefined behaviour in the source (the cursor runs
past the vector) and is totalised as returning the current state. -/
def contractLoop (k : Nat) : Nat → UnionFind → List Edge → List Edge → List Nat → LoopOut
  | fuel, uf, pre, suf, rand =>
    if uf.nb_subsets = k then ⟨uf, pre, suf, rand⟩
    else
      match fuel, suf with
      | fuel2 + 1, a :: tl =>
        let s2 := swapFront (a :: tl) (rand.headD 0 % (a :: tl).length)
        let e := s2.headD ⟨0, 0⟩
        contractLoop k fuel2 (uf.merge e.tail e.head) (pre ++ [e]) (s2.drop 1) (rand.drop 1)
      | _, _ => ⟨uf, pre, suf, rand⟩

/-- The `std::count_if(start, end(edges), [&](auto e){ return !uf.connected(...); })`
of karger_union_find, threading the path compressions done by connected. -/
def countCrossing : UnionFind → List Edge → Nat × UnionFind
  | uf, [] => (0, uf)
  | uf, e :: es =>
    ((if (uf.connected e.tail e.head).fst then 0 else 1) +
        (countCrossing (uf.connected e.tail e.head).snd es).fst,
      (countCrossing (uf.connected e.tail e.head).snd es).snd)

/-- karger_union_find (karger.hpp lines 89-101).  Returns the GraphCut, the
graph as left by the call (its edge vector reordered in place), and the
unconsumed random stream. -/
def karger_union_find (g : EVGraph) (rand : List Nat) : GraphCut × EVGraph × List Nat :=
  ((⟨(countCrossing (contractLoop 2 g.edges.length (UnionFind.init g.n) [] g.edges rand).uf
        (contractLoop 2 g.edges.length (UnionFind.init g.n) [] g.edges rand).remaining).fst,
      (countCrossing (contractLoop 2 g.edges.length (UnionFind.init g.n) [] g.edges rand).uf
        (contractLoop 2 g.edges.length (UnionFind.init g.n) [] g.edges rand).remaining).snd⟩ : GraphCut),
    ⟨g.n, (contractLoop 2 g.edges.length (UnionFind.init g.n) [] g.edges rand).consumed ++
        (contractLoop 2 g.edges.length (UnionFind.init g.n) [] g.edges rand).remaining⟩,
    (contractLoop 2 g.edges.length (UnionFind.init g.n) [] g.edges rand).rand)

/-- ContractedGraph of karger_stein_union_find: a graph plus the DSU
snapshot that produced it. -/
structure ContractedGraph where
  n : Nat
  edges : List Edge
  uf : UnionFind
deriving DecidableEq

/-- The `std::copy_if(start, end(edges), ..., [&](auto e){ return !uf.connected(...); })`
of the contract lambda (self-loop removal), threading path compressions. -/
def filterCrossing : UnionFind → List Edge → List Edge × UnionFind
  | uf, [] => ([], uf)
  | uf, e :: es =>
    ((if (uf.connected e.tail e.head).fst then [] else [e]) ++
        (filterCrossing (uf.connected e.tail e.head).snd es).fst,
      (filterCrossing (uf.connected e.tail e.head).snd es).snd)

/-- The contract lambda of karger_stein_union_find (lines 116-128): copy
the DSU (`UnionFind uf{graph.uf}` — value semantics in the model), run the
contraction loop down to nb_vertices, then keep the unconsumed edges whose
endpoints are not connected. -/
def ks_contract (g : ContractedGraph) (nb_vertices : Nat) (rand : List Nat) :
    ContractedGraph × List Nat :=
  (⟨nb_vertices,
      (filterCrossing (contractLoop nb_vertices g.edges.length g.uf [] g.edges rand).uf
        (contractLoop nb_vertices g.edges.length g.uf [] g.edges rand).remaining).fst,
      (filterCrossing (contractLoop nb_vertices g.edges.length g.uf [] g.edges rand).uf
        (contractLoop nb_vertices g.edges.length g.uf [] g.edges rand).remaining).snd⟩,
    (contractLoop nb_vertices g.edges.length g.uf [] g.edges rand).rand)

/-- The IEEE-754 binary64 constant `INV_SQRT_2 = 1.0 / std::sqrt(2)` of
karger.hpp line 134, as a dyadic rational: std::sqrt is correctly rounded,
giving sqrt(2) = 6369051672525773 · 2⁻⁵², and the correctly rounded
reciprocal of that double is 0x1.6a09e667f3bccp-1 = invSqrt2Num · 2⁻⁵³.
This value lies one ulp below the real 1/√2, which is why the code's t can
come out one below the exact ceiling at inputs whose product lands just
under an integer (for example n = 131836323). -/
def invSqrt2Num : Nat := 6369051672525772

/-- Round-to-nearest, ties to even, of N / 2^s to an integer: the IEEE-754
rounding of a positive dyadic rational onto a 53-bit significand grid. -/
def rnShift (N s : Nat) : Nat :=
  if 2 * (N % 2 ^ s) < 2 ^ s then N / 2 ^ s
  else if 2 ^ s < 2 * (N % 2 ^ s) then N / 2 ^ s + 1
  else if N / 2 ^ s % 2 = 0 then N / 2 ^ s else N / 2 ^ s + 1

/-- Exact value of `std::ceil(graph.n * INV_SQRT_2)` under binary64
arithmetic, for every n below 2⁵³ (hence on the whole node_t = uint32 /
int range the repository instantiates): n converts to double exactly, the
product equals (n · invSqrt2Num) / 2⁵³ rounded to nearest (ties to even)
at 53 significant bits — the grid step for a product of bit length b > 53
is 2^(b-53), and a carry to 2⁵³ stays exactly representable — and
std::ceil of a double is exact.  Validated differentially against IEEE-754
evaluation across the uint32 range, including the inputs (such as
n = 131836323 and n = 768398401) where the rounded product falls below the
exact n/√2 ceiling. -/
def fpCeilMul (n : Nat) : Nat :=
  if 53 ≤ (Nat.log 2 (n * invSqrt2Num) + 1) - 53 then
    rnShift (n * invSqrt2Num) ((Nat.log 2 (n * invSqrt2Num) + 1) - 53) *
      2 ^ ((Nat.log 2 (n * invSqrt2Num) + 1) - 53 - 53)
  else
    (rnShift (n * invSqrt2Num) ((Nat.log 2 (n * invSqrt2Num) + 1) - 53) +
      (2 ^ (53 - ((Nat.log 2 (n * invSqrt2Num) + 1) - 53)) - 1)) /
      2 ^ (53 - ((Nat.log 2 (n * invSqrt2Num) + 1) - 53))

/-- The target component count `t = 1 + std::ceil(graph.n * INV_SQRT_2)` of
the internal transition (line 147), with the double computation modelled
exactly by fpCeilMul. -/
def ks_t (n : Nat) : Nat := 1 + fpCeilMul n

/-- The main while-loop of karger_stein_union_find (lines 139-151) on the
explicit stack of ContractedGraph tasks, with structural fuel.  Leaf tasks
(n ≤ 6) are contracted to 2 components and compared against the running
best with std::min (strict <, first argument kept on ties); internal tasks
push two independently contracted children (the first push consumes the
random stream first). -/
def ks_loop : Nat → List ContractedGraph → GraphCut → List Nat → GraphCut
  | 0, _, best, _ => best
  | _ + 1, [], best, _ => best
  | fuel + 1, g :: stack, best, rand =>
    if g.n ≤ 6 then
      ks_loop fuel stack
        (if (⟨(ks_contract g 2 rand).fst.edges.length, (ks_contract g 2 rand).fst.uf⟩ :
              GraphCut).cut_size < best.cut_size
          then ⟨(ks_contract g 2 rand).fst.edges.length, (ks_contract g 2 rand).fst.uf⟩
          else best)
        (ks_contract g 2 rand).snd
    else
      ks_loop fuel
        ((ks_contract g (ks_t g.n) (ks_contract g (ks_t g.n) rand).snd).fst ::
          (ks_contract g (ks_t g.n) rand).fst :: stack)
        best
        (ks_contract g (ks_t g.n) (ks_contract g (ks_t g.n) rand).snd).snd

/-- karger_stein_union_find (lines 107-154).  The sentinel best cut is
`GraphCut{input_graph.n, {{}}}` (a DSU constructed with n = 0); the root
task copies the input edges and starts a fresh DSU over n vertices.  The
input graph is taken by const reference and only copied from, which the
model renders by returning it unchanged alongside the result.  The fuel
3^n bounds the number of loop iterations (each task of size m accounts for
at most 3^m iterations and children strictly shrink). -/
def karger_stein_union_find (g : EVGraph) (rand : List Nat) : GraphCut × EVGraph :=
  (ks_loop (3 ^ g.n) [⟨g.n, g.edges, UnionFind.init g.n⟩] ⟨g.n, UnionFind.init 0⟩ rand,
    ⟨g.n, g.edges⟩)

/-- Well-formed DSU state: parent pointers stay in range and every ancestor
chain reaches a fixed point (a root) within length steps.  A decidable
property, equivalent (by rootAux_of_hit and pIter_absorb) to termination of
the C++ find loops. -/
def WFs (s : List Subset) : Prop :=
  (∀ x, x < s.length → par s x < s.length) ∧
  (∀ x, x < s.length → par s (pIter s s.length x) = pIter s s.length x)

instance (s : List Subset) : Decidable (WFs s) := by
  unfold WFs; infer_instance

/-- Number of root records (`id == index`), the quantity that nb_subsets is
documented to track. -/
def nbRoots (s : List Subset) : Nat :=
  ((Finset.range s.length).filter (fun z => par s z = z)).card

/-- The winning root of a size-union of the two roots i and j (ties go to
the first argument of the else-branch, i.e. j is attached under i). -/
def mrWinner (u : UnionFind) (i j : Nat) : Nat :=
  if sz u.subsets i < sz u.subsets j then j else i

/-- The root that gets attached under the other in a size-union of i and j. -/
def mrLoser (u : UnionFind) (i j : Nat) : Nat :=
  if sz u.subsets i < sz u.subsets j then i else j

/-- The surviving root of `merge(x, y)` expressed over the pre-merge state:
the root of larger size, the root of x on ties. -/
def mWinner (uf : UnionFind) (x y : Nat) : Nat :=
  if sz uf.subsets (rootD uf.subsets x) < sz uf.subsets (rootD uf.subsets y)
  then rootD uf.subsets y else rootD uf.subsets x

/-- The root that `merge(x, y)` attaches under the other, over the
pre-merge state. -/
def mLoser (uf : UnionFind) (x y : Nat) : Nat :=
  if sz uf.subsets (rootD uf.subsets x) < sz uf.subsets (rootD uf.subsets y)
  then rootD uf.subsets x else rootD uf.subsets y

/-- Membership of an undirected edge {a, b} in an edge list. -/
def edgeMem (es : List Edge) (a b : Nat) : Bool :=
  es.any (fun e => (e.tail == a && e.head == b) || (e.tail == b && e.head == a))

/-- One step of adjacency over a DSU state: already merged, or joined by a
listed edge. -/
def connRel (uf : UnionFind) (es : List Edge) (a b : Nat) : Prop :=
  rootD uf.subsets a = rootD uf.subsets b ∨ edgeMem es a b = true

/-- The contracted multigraph (DSU state plus remaining edges) is connected:
any two in-range vertices are joined by the equivalence closure of
merged-or-adjacent.  This is the unchecked precondition of both algorithms. -/
def ConnUF (uf : UnionFind) (es : List Edge) : Prop :=
  ∀ a b, a < uf.subsets.length → b < uf.subsets.length →
    Relation.EqvGen (connRel uf es) a b

/-- All edge endpoints index into the DSU (the graph validity invariant). -/
def edgesOk (uf : UnionFind) (es : List Edge) : Prop :=
  ∀ e ∈ es, e.tail < uf.subsets.length ∧ e.head < uf.subsets.length

/-- Whole union-find state invariant: well-formed forest and nb_subsets
equal to the number of roots. -/
def UFInv (uf : UnionFind) : Prop :=
  WFs uf.subsets ∧ nbRoots uf.subsets = uf.nb_subsets

instance (uf : UnionFind) (es : List Edge) : Decidable (edgesOk uf es) := by
  unfold edgesOk; infer_instance

instance (uf : UnionFind) : Decidable (UFInv uf) := by
  unfold UFInv; infer_instance

/-- Specification-level crossing-edge count: edges whose endpoints lie in
different subsets (different roots) of the DSU state. -/
def crossCount (s : List Subset) (es : List Edge) : Nat :=
  es.countP (fun e => !(rootD s e.tail == rootD s e.head))

/-- Specification-level self-loop removal: the edges whose endpoints lie in
different subsets of the DSU state, in order. -/
def crossFilter (s : List Subset) (es : List Edge) : List Edge :=
  es.filter (fun e => !(rootD s e.tail == rootD s e.head))

/-- DSU states reachable from a constructor call by in-range finds and
merges (the lifecycle stated by the spec: constructed as n singletons,
mutated only through merge, with find compressions along the way). -/
inductive Reach : UnionFind → Prop where
  | init (n : Nat) : Reach (UnionFind.init n)
  | find (uf : UnionFind) (x : Nat) (hr : Reach uf) (hx : x < uf.subsets.length) :
      Reach (uf.find x).snd
  | merge (uf : UnionFind) (x y : Nat) (hr : Reach uf) (hx : x < uf.subsets.length)
      (hy : y < uf.subsets.length) : Reach (uf.merge x y)

/-- A 5-element DSU state reached by merge(0,1); merge(2,3); merge(1,3):
two subsets {0,1,2,3} (root 0) and {4}, in which node 3 still stores
parent id 2 (a non-root).  Exercises GraphCut::get_partitions. -/
def uC1 : UnionFind := (((UnionFind.init 5).merge 0 1).merge 2 3).merge 1 3

/-- A GraphCut holding the two-subset DSU state uC1. -/
def cutC1 : GraphCut := ⟨1, uC1⟩

/-- Connected 2-vertex multigraph with two parallel edges; its minimum cut
is 2 = n. -/
def g2 : EVGraph := ⟨2, [⟨0, 1⟩, ⟨0, 1⟩]⟩

/-- Connected 2-vertex multigraph with three parallel edges; its minimum
cut is 3 > n. -/
def g3 : EVGraph := ⟨2, [⟨0, 1⟩, ⟨0, 1⟩, ⟨0, 1⟩]⟩

/-- A 4-element DSU state (single subset) in which node 3 stores parent id
2: reached by merge(0,1); merge(2,3); merge(1,3). -/
def uC6 : UnionFind := (((UnionFind.init 4).merge 0 1).merge 2 3).merge 1 3

/-- The 7-vertex path graph 0-1-2-...-6, the smallest connected input that
triggers the internal (n > 6) transition of the Karger-Stein schedule. -/
def g7 : EVGraph :=
  ⟨7, [⟨0, 1⟩, ⟨1, 2⟩, ⟨2, 3⟩, ⟨3, 4⟩, ⟨4, 5⟩, ⟨5, 6⟩]⟩

/-- The root Karger-Stein task for g7. -/
def task7 : ContractedGraph := ⟨7, g7.edges, UnionFind.init 7⟩

/-! Basic facts about getD-based parent and size reads. -/

theorem getD_out {α : Type} (l : List α) (i : Nat) (d : α) (h : l.length ≤ i) :
    l.getD i d = d := by
  rw [List.getD_eq_getElem?_getD, List.getElem?_eq_none h]; rfl

theorem getD_in {α : Type} (l : List α) (i : Nat) (d1 d2 : α) (h : i < l.length) :
    l.getD i d1 = l.getD i d2 := by
  rw [List.getD_eq_getElem?_getD, List.getD_eq_getElem?_getD,
    List.getElem?_eq_getElem h]; rfl

theorem par_out (s : List Subset) (x : Nat) (h : s.length ≤ x) : par s x = x := by
  rw [par, getD_out s x _ h]

theorem par_set_self (s : List Subset) (x : Nat) (a : Subset) (h : x < s.length) :
    par (s.set x a) x = a.id := by
  rw [par, List.getD_eq_getElem?_getD, List.getElem?_set_self h]; rfl

theorem par_set_ne (s : List Subset) (x z : Nat) (a : Subset) (h : x ≠ z) :
    par (s.set x a) z = par s z := by
  rw [par, par, List.getD_eq_getElem?_getD, List.getD_eq_getElem?_getD,
    List.getElem?_set_ne h]

theorem sz_set_self (s : List Subset) (x : Nat) (a : Subset) (h : x < s.length) :
    sz (s.set x a) x = a.size := by
  rw [sz, List.getD_eq_getElem?_getD, List.getElem?_set_self h]; rfl

theorem sz_set_ne (s : List Subset) (x z : Nat) (a : Subset) (h : x ≠ z) :
    sz (s.set x a) z = sz s z := by
  rw [sz, sz, List.getD_eq_getElem?_getD, List.getD_eq_getElem?_getD,
    List.getElem?_set_ne h]

/-! Ancestor chains. -/

theorem pIter_zero (s : List Subset) (x : Nat) : pIter s 0 x = x := rfl

theorem pIter_one (s : List Subset) (x : Nat) : pIter s 1 x = par s x := rfl

theorem pIter_succ (s : List Subset) (k x : Nat) :
    pIter s (k + 1) x = pIter s k (par s x) :=
  Function.iterate_succ_apply (par s) k x

theorem pIter_succ2 (s : List Subset) (k x : Nat) :
    pIter s (k + 1) x = par s (pIter s k x) :=
  Function.iterate_succ_apply' (par s) k x

theorem pIter_add (s : List Subset) (a b x : Nat) :
    pIter s (a + b) x = pIter s a (pIter s b x) :=
  Function.iterate_add_apply (par s) a b x

theorem pIter_fix (s : List Subset) (r : Nat) (h : par s r = r) (k : Nat) :
    pIter s k r = r := by
  induction k with
  | zero => rfl
  | succ k ih => rw [pIter_succ2, ih, h]

theorem pIter_absorb (s : List Subset) (x k m : Nat) (hk : k ≤ m)
    (h : par s (pIter s k x) = pIter s k x) : pIter s m x = pIter s k x := by
  have hm : m = (m - k) + k := by omega
  rw [hm, pIter_add, pIter_fix s (pIter s k x) h]

theorem rootAux_of_hit (s : List Subset) :
    ∀ fuel x k, k ≤ fuel → par s (pIter s k x) = pIter s k x →
      rootAux s fuel x = pIter s k x := by
  intro fuel
  induction fuel with
  | zero =>
    intro x k hk h
    have hk0 : k = 0 := by omega
    subst hk0; rfl
  | succ fuel ih =>
    intro x k hk h
    rw [rootAux]
    by_cases hpx : par s x = x
    · rw [if_pos hpx, pIter_fix s x hpx k]
    · rw [if_neg hpx]
      cases k with
      | zero =>
        rw [pIter_zero] at h; exact absurd h hpx
      | succ k =>
        rw [pIter_succ]
        rw [pIter_succ] at h
        exact ih (par s x) k (by omega) h

theorem pIter_lt (s : List Subset) (h : WFs s) (x : Nat) (hx : x < s.length) (k : Nat) :
    pIter s k x < s.length := by
  induction k with
  | zero => exact hx
  | succ k ih => rw [pIter_succ2]; exact h.1 _ ih

theorem rooted_of_wf (s : List Subset) (h : WFs s) (x : Nat) :
    ∃ k, k ≤ s.length ∧ par s (pIter s k x) = pIter s k x := by
  by_cases hx : x < s.length
  · exact ⟨s.length, Nat.le_refl _, h.2 x hx⟩
  · refine ⟨0, Nat.zero_le _, ?_⟩
    rw [pIter_zero]; exact par_out s x (by omega)

theorem rootD_isRoot (s : List Subset) (h : WFs s) (x : Nat) :
    par s (rootD s x) = rootD s x := by
  obtain ⟨k, hk, hr⟩ := rooted_of_wf s h x
  rw [rootD, rootAux_of_hit s s.length x k hk hr]; exact hr

theorem rootD_reaches (s : List Subset) (h : WFs s) (x : Nat) :
    ∃ k, pIter s k x = rootD s x := by
  obtain ⟨k, hk, hr⟩ := rooted_of_wf s h x
  exact ⟨k, (rootAux_of_hit s s.length x k hk hr).symm⟩

theorem root_unique (s : List Subset) (x k1 k2 r1 r2 : Nat)
    (h1 : pIter s k1 x = r1) (hr1 : par s r1 = r1)
    (h2 : pIter s k2 x = r2) (hr2 : par s r2 = r2) : r1 = r2 := by
  rcases Nat.le_total k1 k2 with h | h
  · have habs := pIter_absorb s x k1 k2 h (by rw [h1]; exact hr1)
    rw [h2, h1] at habs; exact habs.symm
  · have habs := pIter_absorb s x k2 k1 h (by rw [h2]; exact hr2)
    rw [h1, h2] at habs; exact habs

theorem rootD_eq_of_hit (s : List Subset) (h : WFs s) (x k r : Nat)
    (hk : pIter s k x = r) (hr : par s r = r) : rootD s x = r := by
  obtain ⟨k2, h2⟩ := rootD_reaches s h x
  exact root_unique s x k2 k (rootD s x) r h2 (rootD_isRoot s h x) hk hr

theorem rootD_of_root (s : List Subset) (x : Nat) (h : par s x = x) : rootD s x = x := by
  rw [rootD, rootAux_of_hit s s.length x 0 (Nat.zero_le _) (by rw [pIter_zero]; exact h)]
  rfl

theorem rootD_out (s : List Subset) (x : Nat) (h : s.length ≤ x) : rootD s x = x :=
  rootD_of_root s x (par_out s x h)

theorem rootD_lt (s : List Subset) (h : WFs s) (x : Nat) (hx : x < s.length) :
    rootD s x < s.length := by
  obtain ⟨k, hk⟩ := rootD_reaches s h x
  rw [← hk]; exact pIter_lt s h x hx k

theorem rootD_par (s : List Subset) (h : WFs s) (x : Nat) :
    rootD s (par s x) = rootD s x := by
  obtain ⟨k, hk⟩ := rootD_reaches s h x
  cases k with
  | zero =>
    rw [pIter_zero] at hk
    have hr := rootD_isRoot s h x
    rw [← hk] at hr
    rw [hr, hk]
  | succ k =>
    rw [pIter_succ] at hk
    exact rootD_eq_of_hit s h (par s x) k _ hk (rootD_isRoot s h x)

theorem rootD_pIter (s : List Subset) (h : WFs s) (x k : Nat) :
    rootD s (pIter s k x) = rootD s x := by
  induction k with
  | zero => rfl
  | succ k ih => rw [pIter_succ2, rootD_par s h, ih]

theorem par_self_of_cycle (s : List Subset) (h : WFs s) (x m : Nat)
    (hc : pIter s (m + 1) x = x) : par s x = x := by
  have hq : ∀ q, pIter s (q * (m + 1)) x = x := by
    intro q
    induction q with
    | zero => rw [Nat.zero_mul]; exact pIter_zero s x
    | succ q ih => rw [Nat.succ_mul, pIter_add, hc, ih]
  obtain ⟨k, _, hr⟩ := rooted_of_wf s h x
  have hle : k ≤ k * (m + 1) := by
    calc k = k * 1 := (Nat.mul_one k).symm
    _ ≤ k * (m + 1) := Nat.mul_le_mul_left k (by omega)
  have habs := pIter_absorb s x k (k * (m + 1)) hle hr
  rw [hq k] at habs
  rw [← habs] at hr
  exact hr

theorem min_hit_lt_len (s : List Subset) (h : WFs s) (z : Nat) (hz : z < s.length) :
    ∃ k, k + 1 ≤ s.length ∧ par s (pIter s k z) = pIter s k z ∧
      ∀ m, m < k → par s (pIter s m z) ≠ pIter s m z := by
  have hex : ∃ k, par s (pIter s k z) = pIter s k z := ⟨s.length, h.2 z hz⟩
  refine ⟨Nat.find hex, ?_, Nat.find_spec hex, fun m hm => Nat.find_min hex hm⟩
  by_contra hcon
  have hlen : s.length ≤ Nat.find hex := by omega
  have hinj : Function.Injective
      (fun i : Fin (Nat.find hex + 1) =>
        (⟨pIter s i.val z, pIter_lt s h z hz i.val⟩ : Fin s.length)) := by
    intro a b hab
    have hval : pIter s a.val z = pIter s b.val z := congrArg Fin.val hab
    by_contra hne
    have hne2 : a.val ≠ b.val := fun hv => hne (Fin.ext hv)
    have key : ∀ c d : Nat, c < d → d ≤ Nat.find hex → pIter s c z ≠ pIter s d z := by
      intro c d hcd hdk heq
      have h2 : pIter s (Nat.find hex - d + c) z = pIter s (Nat.find hex) z := by
        have e1 : pIter s (Nat.find hex) z = pIter s (Nat.find hex - d) (pIter s d z) := by
          rw [← pIter_add]; congr 1; omega
        rw [e1, ← heq, ← pIter_add]
      have h3 : par s (pIter s (Nat.find hex - d + c) z) = pIter s (Nat.find hex - d + c) z := by
        rw [h2]; exact Nat.find_spec hex
      exact Nat.find_min hex (show Nat.find hex - d + c < Nat.find hex by omega) h3
    rcases Nat.lt_or_ge a.val b.val with hl | hg
    · exact key a.val b.val hl (by omega) hval
    · have hl2 : b.val < a.val := by omega
      exact key b.val a.val hl2 (by omega) hval.symm
  have hcard := Fintype.card_le_of_injective _ hinj
  rw [Fintype.card_fin, Fintype.card_fin] at hcard
  omega

theorem walk_avoid (s : List Subset) (y : Nat) (e : Subset) (z : Nat) :
    ∀ k, (∀ m, m < k → pIter s m z ≠ y) → pIter (s.set y e) k z = pIter s k z := by
  intro k
  induction k with
  | zero => intro _; rfl
  | succ k ih =>
    intro hm
    rw [pIter_succ2, pIter_succ2, ih (fun m hmk => hm m (by omega))]
    exact par_set_ne s y (pIter s k z) e (fun hy => (hm k (by omega)) hy.symm)

/-- Effect of repointing node y to a root r0 (the single mutation step shared
by path compression, which repoints a walk node to its own root, and by
merge, which repoints a root to the other root): well-formedness is
preserved and the root function changes exactly on the class of y. -/
theorem set_redirect (s : List Subset) (y r0 w : Nat) (h : WFs s)
    (hy : y < s.length) (hr0root : par s r0 = r0) (hr0lt : r0 < s.length)
    (hne : r0 ≠ y) (hcase : r0 = rootD s y ∨ par s y = y) :
    WFs (s.set y ⟨r0, w⟩) ∧
    (∀ z, rootD (s.set y ⟨r0, w⟩) z =
      if rootD s z = rootD s y then r0 else rootD s z) := by
  have hlen : (s.set y (⟨r0, w⟩ : Subset)).length = s.length := List.length_set s y _
  have hpy : par (s.set y ⟨r0, w⟩) y = r0 := par_set_self s y _ hy
  have hpne : ∀ z, z ≠ y → par (s.set y ⟨r0, w⟩) z = par s z := by
    intro z hz
    exact par_set_ne s y z _ (fun hzy => hz hzy.symm)
  have key : ∀ z, ∃ k, k ≤ s.length ∧
      pIter (s.set y ⟨r0, w⟩) k z = (if rootD s z = rootD s y then r0 else rootD s z) ∧
      par (s.set y ⟨r0, w⟩) (if rootD s z = rootD s y then r0 else rootD s z) =
        (if rootD s z = rootD s y then r0 else rootD s z) := by
    intro z
    by_cases hz : z < s.length
    · by_cases hhits : ∃ m, pIter s m z = y
      · have hm0 := Nat.find_spec hhits
        have hmin : ∀ m, m < Nat.find hhits → pIter s m z ≠ y :=
          fun m hm => Nat.find_min hhits hm
        obtain ⟨kr, hkr1, hkr2, hkrmin⟩ := min_hit_lt_len s h z hz
        have hm0kr : Nat.find hhits ≤ kr := by
          by_contra hcon
          have hkrm0 : kr ≤ Nat.find hhits := by omega
          have habs := pIter_absorb s z kr (Nat.find hhits) hkrm0 hkr2
          rw [hm0] at habs
          have hyroot : par s y = y := by rw [habs]; exact hkr2
          rcases hcase with hl | hr
          · rw [rootD_of_root s y hyroot] at hl
            exact hne hl
          · exact absurd (Nat.find_min' hhits habs.symm) (by omega)
        have hcondT : rootD s z = rootD s y := by
          have := rootD_pIter s h z (Nat.find hhits)
          rw [hm0] at this
          exact this.symm
        rw [if_pos hcondT]
        refine ⟨Nat.find hhits + 1, by omega, ?_, ?_⟩
        · rw [pIter_succ2, walk_avoid s y _ z (Nat.find hhits) hmin, hm0, hpy]
        · rw [hpne r0 hne]; exact hr0root
      · push_neg at hhits
        obtain ⟨kr, hkr1, hkr2, _⟩ := min_hit_lt_len s h z hz
        have hρ : rootD s z = pIter s kr z := rootD_eq_of_hit s h z kr _ rfl hkr2
        have hVρ : (if rootD s z = rootD s y then r0 else rootD s z) = rootD s z := by
          by_cases hcond : rootD s z = rootD s y
          · rw [if_pos hcond]
            rcases hcase with hl | hr
            · rw [hl, ← hcond]
            · exfalso
              have hyy : rootD s y = y := rootD_of_root s y hr
              rw [hyy] at hcond
              obtain ⟨kk, hkk⟩ := rootD_reaches s h z
              rw [hcond] at hkk
              exact hhits kk hkk
          · rw [if_neg hcond]
        rw [hVρ]
        refine ⟨kr, by omega, ?_, ?_⟩
        · rw [walk_avoid s y _ z kr (fun m _ => hhits m)]
          exact hρ.symm
        · rw [hρ, hpne _ (hhits kr)]
          exact hkr2
    · have hzlen : s.length ≤ z := by omega
      have hz1 : rootD s z = z := rootD_out s z hzlen
      have hcondF : ¬ rootD s z = rootD s y := by
        have := rootD_lt s h y hy
        omega
      rw [if_neg hcondF, hz1]
      refine ⟨0, Nat.zero_le _, pIter_zero _ z, ?_⟩
      exact par_out _ z (by omega)
  have hval : ∀ z, rootD (s.set y ⟨r0, w⟩) z =
      (if rootD s z = rootD s y then r0 else rootD s z) := by
    intro z
    obtain ⟨k, hk, hhit, hroot⟩ := key z
    have hroot2 : par (s.set y ⟨r0, w⟩) (pIter (s.set y ⟨r0, w⟩) k z) =
        pIter (s.set y ⟨r0, w⟩) k z := by rw [hhit]; exact hroot
    rw [rootD, rootAux_of_hit _ _ z k (by omega) hroot2]
    exact hhit
  refine ⟨⟨?_, ?_⟩, hval⟩
  · intro z hz
    rw [hlen] at hz
    rw [hlen]
    by_cases hzy : z = y
    · subst hzy; rw [hpy]; exact hr0lt
    · rw [hpne z hzy]; exact h.1 z hz
  · intro z hz
    obtain ⟨k, hk, hhit, hroot⟩ := key z
    have hroot2 : par (s.set y ⟨r0, w⟩) (pIter (s.set y ⟨r0, w⟩) k z) =
        pIter (s.set y ⟨r0, w⟩) k z := by rw [hhit]; exact hroot
    have habs := pIter_absorb _ z k (s.set y ⟨r0, w⟩).length (by omega) hroot2
    rw [habs]
    exact hroot2

theorem rootAux_congr (s1 s2 : List Subset) (hp : ∀ z, par s1 z = par s2 z) :
    ∀ fuel x, rootAux s1 fuel x = rootAux s2 fuel x := by
  intro fuel
  induction fuel with
  | zero => intro x; rfl
  | succ fuel ih =>
    intro x
    rw [rootAux, rootAux, hp x]
    by_cases hx : par s2 x = x
    · rw [if_pos hx, if_pos hx]
    · rw [if_neg hx, if_neg hx, ih]

theorem pIter_congr (s1 s2 : List Subset) (hp : ∀ z, par s1 z = par s2 z) (k x : Nat) :
    pIter s1 k x = pIter s2 k x := by
  induction k with
  | zero => rfl
  | succ k ih => rw [pIter_succ2, pIter_succ2, ih, hp]

theorem rootD_congr (s1 s2 : List Subset) (hp : ∀ z, par s1 z = par s2 z)
    (hlen : s1.length = s2.length) (x : Nat) : rootD s1 x = rootD s2 x := by
  rw [rootD, rootD, hlen, rootAux_congr s1 s2 hp]

theorem WFs_congr (s1 s2 : List Subset) (hp : ∀ z, par s1 z = par s2 z)
    (hlen : s1.length = s2.length) (h : WFs s1) : WFs s2 := by
  constructor
  · intro z hz
    rw [← hlen] at hz
    rw [← hlen, ← hp]
    exact h.1 z hz
  · intro z hz
    rw [← hlen] at hz
    have h2 := h.2 z hz
    rw [hp, pIter_congr s1 s2 hp] at h2
    rw [← hlen]
    exact h2

theorem compressAux_spec :
    ∀ fuel s x r, WFs s → rootD s x = r →
      (compressAux fuel s x r).length = s.length ∧
      WFs (compressAux fuel s x r) ∧
      (∀ z, rootD (compressAux fuel s x r) z = rootD s z) ∧
      (∀ z, sz (compressAux fuel s x r) z = sz s z) ∧
      (∀ z, par (compressAux fuel s x r) z = par s z ∨ par (compressAux fuel s x r) z = r) ∧
      (∀ z, (par (compressAux fuel s x r) z = z ↔ par s z = z)) := by
  intro fuel
  induction fuel with
  | zero =>
    intro s x r h _
    exact ⟨rfl, h, fun _ => rfl, fun _ => rfl, fun _ => Or.inl rfl, fun _ => Iff.rfl⟩
  | succ fuel ih =>
    intro s x r h hr
    rw [compressAux]
    by_cases hstop : par s x = r
    · rw [if_pos hstop]
      exact ⟨rfl, h, fun _ => rfl, fun _ => rfl, fun _ => Or.inl rfl, fun _ => Iff.rfl⟩
    · rw [if_neg hstop]
      have hxlen : x < s.length := by
        by_contra hcon
        have hpx : par s x = x := par_out s x (by omega)
        rw [rootD_of_root s x hpx] at hr
        exact hstop (by rw [hpx, hr])
      have hrroot : par s r = r := by rw [← hr]; exact rootD_isRoot s h x
      have hrlt : r < s.length := by rw [← hr]; exact rootD_lt s h x hxlen
      have hrne : r ≠ x := by
        intro hrx
        exact hstop (by rw [hrx]; rw [hrx] at hrroot; exact hrroot)
      have hxnonroot : par s x ≠ x := by
        intro hpx
        rw [rootD_of_root s x hpx] at hr
        exact hstop (by rw [hpx, hr])
      obtain ⟨hwf1, hval1⟩ :=
        set_redirect s x r (sz s x) h hxlen hrroot hrlt hrne (Or.inl hr.symm)
      have hroot1 : ∀ z, rootD (s.set x ⟨r, sz s x⟩) z = rootD s z := by
        intro z
        rw [hval1 z]
        by_cases hc : rootD s z = rootD s x
        · rw [if_pos hc, hc, hr]
        · rw [if_neg hc]
      have hlen1 : (s.set x (⟨r, sz s x⟩ : Subset)).length = s.length := List.length_set s x _
      have hr1 : rootD (s.set x ⟨r, sz s x⟩) (par s x) = r := by
        rw [hroot1, rootD_par s h, hr]
      obtain ⟨ihlen, ihwf, ihroot, ihsz, ihpar, ihriff⟩ :=
        ih (s.set x ⟨r, sz s x⟩) (par s x) r hwf1 hr1
      refine ⟨by rw [ihlen, hlen1], ihwf, ?_, ?_, ?_, ?_⟩
      · intro z; rw [ihroot, hroot1]
      · intro z
        rw [ihsz]
        by_cases hzx : z = x
        · rw [hzx, sz_set_self s x _ hxlen]
        · rw [sz_set_ne s x z _ (fun hxz => hzx hxz.symm)]
      · intro z
        rcases ihpar z with hh | hh
        · by_cases hzx : z = x
          · rw [hzx] at hh
            rw [hzx, hh, par_set_self s x _ hxlen]
            exact Or.inr rfl
          · rw [hh, par_set_ne s x z _ (fun hxz => hzx hxz.symm)]
            exact Or.inl rfl
        · exact Or.inr hh
      · intro z
        rw [ihriff z]
        by_cases hzx : z = x
        · rw [hzx, par_set_self s x _ hxlen]
          constructor
          · intro hrx2; exact absurd hrx2 hrne
          · intro hpx2; exact absurd hpx2 hxnonroot
        · rw [par_set_ne s x z _ (fun hxz => hzx hxz.symm)]

theorem compressAux_points :
    ∀ fuel s x r, WFs s → rootD s x = r → (∃ k, k ≤ fuel ∧ pIter s k x = r) →
      ∀ m, par (compressAux fuel s x r) (pIter s m x) = r := by
  intro fuel
  induction fuel with
  | zero =>
    intro s x r h hr hfuel m
    obtain ⟨k, hk, hkr⟩ := hfuel
    have hk0 : k = 0 := by omega
    subst hk0
    rw [pIter_zero] at hkr
    rw [compressAux]
    have hroot : par s x = x := by
      have hh := rootD_isRoot s h x
      rw [hr, ← hkr] at hh
      exact hh
    rw [pIter_fix s x hroot m, hroot]
    exact hkr
  | succ fuel ih =>
    intro s x r h hr hfuel m
    rw [compressAux]
    by_cases hstop : par s x = r
    · rw [if_pos hstop]
      have hrroot : par s r = r := by rw [← hr]; exact rootD_isRoot s h x
      cases m with
      | zero => rw [pIter_zero]; exact hstop
      | succ m =>
        rw [pIter_succ, hstop, pIter_fix s r hrroot m]
        exact hrroot
    · rw [if_neg hstop]
      have hxlen : x < s.length := by
        by_contra hcon
        have hpx : par s x = x := par_out s x (by omega)
        rw [rootD_of_root s x hpx] at hr
        exact hstop (by rw [hpx, hr])
      have hrroot : par s r = r := by rw [← hr]; exact rootD_isRoot s h x
      have hrlt : r < s.length := by rw [← hr]; exact rootD_lt s h x hxlen
      have hrne : r ≠ x := by
        intro hrx
        exact hstop (by rw [hrx]; rw [hrx] at hrroot; exact hrroot)
      have hxnonroot : par s x ≠ x := by
        intro hpx
        rw [rootD_of_root s x hpx] at hr
        exact hstop (by rw [hpx, hr])
      have havoid : ∀ kk, pIter s kk (par s x) ≠ x := by
        intro kk hkk
        have hcyc : pIter s (kk + 1) x = x := by rw [pIter_succ]; exact hkk
        exact hxnonroot (par_self_of_cycle s h x kk hcyc)
      obtain ⟨hwf1, hval1⟩ :=
        set_redirect s x r (sz s x) h hxlen hrroot hrlt hrne (Or.inl hr.symm)
      have hroot1 : ∀ z, rootD (s.set x ⟨r, sz s x⟩) z = rootD s z := by
        intro z
        rw [hval1 z]
        by_cases hc : rootD s z = rootD s x
        · rw [if_pos hc, hc, hr]
        · rw [if_neg hc]
      have hr1 : rootD (s.set x ⟨r, sz s x⟩) (par s x) = r := by
        rw [hroot1, rootD_par s h, hr]
      obtain ⟨k, hk, hkr⟩ := hfuel
      have hk0 : k ≠ 0 := by
        intro h0
        subst h0
        rw [pIter_zero] at hkr
        exact hrne hkr.symm
      obtain ⟨k2, rfl⟩ : ∃ k2, k = k2 + 1 := ⟨k - 1, by omega⟩
      have hkr2 : pIter (s.set x ⟨r, sz s x⟩) k2 (par s x) = r := by
        rw [walk_avoid s x _ (par s x) k2 (fun mm _ => havoid mm), ← pIter_succ]
        exact hkr
      have ihp := ih (s.set x ⟨r, sz s x⟩) (par s x) r hwf1 hr1 ⟨k2, by omega, hkr2⟩
      cases m with
      | zero =>
        rw [pIter_zero]
        obtain ⟨_, _, _, _, ihpar, _⟩ :=
          compressAux_spec fuel (s.set x ⟨r, sz s x⟩) (par s x) r hwf1 hr1
        rcases ihpar x with hh | hh
        · rw [hh, par_set_self s x _ hxlen]
        · exact hh
      | succ m =>
        rw [pIter_succ,
          ← walk_avoid s x (⟨r, sz s x⟩ : Subset) (par s x) m (fun mm _ => havoid mm)]
        exact ihp m

theorem find_spec (uf : UnionFind) (x : Nat) (h : WFs uf.subsets) :
    (uf.find x).fst = rootD uf.subsets x ∧
    (uf.find x).snd.nb_subsets = uf.nb_subsets ∧
    (uf.find x).snd.subsets.length = uf.subsets.length ∧
    WFs (uf.find x).snd.subsets ∧
    (∀ z, rootD (uf.find x).snd.subsets z = rootD uf.subsets z) ∧
    (∀ z, sz (uf.find x).snd.subsets z = sz uf.subsets z) ∧
    (∀ z, (par (uf.find x).snd.subsets z = z ↔ par uf.subsets z = z)) ∧
    (∀ m, par (uf.find x).snd.subsets (pIter uf.subsets m x) = rootD uf.subsets x) := by
  have hfuel : ∃ k, k ≤ uf.subsets.length ∧ pIter uf.subsets k x = rootD uf.subsets x := by
    obtain ⟨k, hk, hroot⟩ := rooted_of_wf uf.subsets h x
    exact ⟨k, hk, (rootAux_of_hit uf.subsets uf.subsets.length x k hk hroot).symm⟩
  obtain ⟨clen, cwf, croot, csz, _, criff⟩ :=
    compressAux_spec uf.subsets.length uf.subsets x (rootD uf.subsets x) h rfl
  have cpoints :=
    compressAux_points uf.subsets.length uf.subsets x (rootD uf.subsets x) h rfl hfuel
  exact ⟨rfl, rfl, clen, cwf, croot, csz, criff, cpoints⟩

theorem init_len (n : Nat) : (UnionFind.init n).subsets.length = n := by
  simp [UnionFind.init]

theorem init_par (n : Nat) : ∀ x, par (UnionFind.init n).subsets x = x := by
  intro x
  by_cases hx : x < n
  · rw [par, List.getD_eq_getElem?_getD]
    show (((List.range n).map (fun i => (⟨i, 1⟩ : Subset)))[x]?.getD ⟨x, 1⟩).id = x
    rw [List.getElem?_map, List.getElem?_range hx]
    rfl
  · exact par_out _ x (by rw [init_len]; omega)

theorem init_wf (n : Nat) : WFs (UnionFind.init n).subsets := by
  constructor
  · intro x hx; rw [init_par]; exact hx
  · intro x _
    rw [pIter_fix _ x (init_par n x) _]
    exact init_par n x

theorem init_nbRoots (n : Nat) : nbRoots (UnionFind.init n).subsets = n := by
  rw [nbRoots, init_len, Finset.filter_true_of_mem (fun z _ => init_par n z)]
  exact Finset.card_range n

theorem init_inv (n : Nat) : UFInv (UnionFind.init n) := ⟨init_wf n, init_nbRoots n⟩

theorem init_rootD (n : Nat) : ∀ x, rootD (UnionFind.init n).subsets x = x :=
  fun x => rootD_of_root _ x (init_par n x)

theorem nbRoots_congr_iff (s1 s2 : List Subset) (hlen : s1.length = s2.length)
    (hiff : ∀ z, (par s1 z = z ↔ par s2 z = z)) : nbRoots s1 = nbRoots s2 := by
  rw [nbRoots, nbRoots, hlen]
  congr 1
  apply Finset.ext
  intro z
  simp only [Finset.mem_filter, Finset.mem_range]
  constructor
  · rintro ⟨hz, hp⟩; exact ⟨hz, (hiff z).mp hp⟩
  · rintro ⟨hz, hp⟩; exact ⟨hz, (hiff z).mpr hp⟩

theorem nbRoots_erase (s1 s2 : List Subset) (hlen : s1.length = s2.length) (L : Nat)
    (hiff : ∀ z, (par s2 z = z ↔ (par s1 z = z ∧ z ≠ L)))
    (hLroot : par s1 L = L) (hLlt : L < s1.length) :
    nbRoots s2 + 1 = nbRoots s1 := by
  rw [nbRoots, nbRoots, ← hlen]
  have hset : (Finset.range s1.length).filter (fun z => par s2 z = z) =
      ((Finset.range s1.length).filter (fun z => par s1 z = z)).erase L := by
    apply Finset.ext
    intro z
    simp only [Finset.mem_filter, Finset.mem_range, Finset.mem_erase]
    constructor
    · rintro ⟨hz, hp⟩
      obtain ⟨hp1, hzL⟩ := (hiff z).mp hp
      exact ⟨hzL, hz, hp1⟩
    · rintro ⟨hzL, hz, hp1⟩
      exact ⟨hz, (hiff z).mpr ⟨hp1, hzL⟩⟩
  have hmem : L ∈ (Finset.range s1.length).filter (fun z => par s1 z = z) := by
    simp only [Finset.mem_filter, Finset.mem_range]
    exact ⟨hLlt, hLroot⟩
  rw [hset, Finset.card_erase_of_mem hmem]
  have hpos : 1 ≤ ((Finset.range s1.length).filter (fun z => par s1 z = z)).card :=
    Finset.card_pos.mpr ⟨L, hmem⟩
  omega

theorem find_inv (uf : UnionFind) (x : Nat) (h : UFInv uf) : UFInv (uf.find x).snd := by
  obtain ⟨_, hnb, hlen, hwf, _, _, hriff, _⟩ := find_spec uf x h.1
  refine ⟨hwf, ?_⟩
  rw [nbRoots_congr_iff _ uf.subsets hlen hriff, h.2]
  exact hnb.symm

theorem attach_spec (u : UnionFind) (i j w : Nat) (h : WFs u.subsets)
    (hi : par u.subsets i = i) (hj : par u.subsets j = j)
    (hilt : i < u.subsets.length) (hjlt : j < u.subsets.length) (hij : i ≠ j) :
    ((u.subsets.set i ⟨j, sz u.subsets i⟩).set j ⟨par u.subsets j, w⟩).length =
      u.subsets.length ∧
    WFs ((u.subsets.set i ⟨j, sz u.subsets i⟩).set j ⟨par u.subsets j, w⟩) ∧
    (∀ z, rootD ((u.subsets.set i ⟨j, sz u.subsets i⟩).set j ⟨par u.subsets j, w⟩) z =
      if rootD u.subsets z = i then j else rootD u.subsets z) ∧
    (∀ z, (par ((u.subsets.set i ⟨j, sz u.subsets i⟩).set j ⟨par u.subsets j, w⟩) z = z ↔
      (par u.subsets z = z ∧ z ≠ i))) ∧
    par ((u.subsets.set i ⟨j, sz u.subsets i⟩).set j ⟨par u.subsets j, w⟩) i = j ∧
    sz ((u.subsets.set i ⟨j, sz u.subsets i⟩).set j ⟨par u.subsets j, w⟩) j = w ∧
    (∀ z, z ≠ j →
      sz ((u.subsets.set i ⟨j, sz u.subsets i⟩).set j ⟨par u.subsets j, w⟩) z =
        sz u.subsets z) := by
  have hlen1 : (u.subsets.set i (⟨j, sz u.subsets i⟩ : Subset)).length = u.subsets.length :=
    List.length_set _ _ _
  obtain ⟨hwf1, hval1⟩ :=
    set_redirect u.subsets i j (sz u.subsets i) h hilt hj hjlt
      (fun hji => hij hji.symm) (Or.inr hi)
  have hroot1 : ∀ z, rootD (u.subsets.set i ⟨j, sz u.subsets i⟩) z =
      if rootD u.subsets z = i then j else rootD u.subsets z := by
    intro z
    rw [hval1 z, rootD_of_root u.subsets i hi]
  have hjlt1 : j < (u.subsets.set i (⟨j, sz u.subsets i⟩ : Subset)).length := by
    rw [hlen1]; exact hjlt
  have hp : ∀ z,
      par ((u.subsets.set i ⟨j, sz u.subsets i⟩).set j ⟨par u.subsets j, w⟩) z =
        par (u.subsets.set i ⟨j, sz u.subsets i⟩) z := by
    intro z
    by_cases hzj : z = j
    · rw [hzj, par_set_self _ j _ hjlt1, par_set_ne u.subsets i j _ hij]
    · exact par_set_ne _ j z _ (fun hjz => hzj hjz.symm)
  have hlen2 :
      ((u.subsets.set i ⟨j, sz u.subsets i⟩).set j ⟨par u.subsets j, w⟩).length =
        u.subsets.length := by
    rw [List.length_set, hlen1]
  refine ⟨hlen2, ?_, ?_, ?_, ?_, ?_, ?_⟩
  · exact WFs_congr _ _ (fun z => (hp z).symm) (by rw [hlen1, hlen2]) hwf1
  · intro z
    rw [rootD_congr _ _ hp (by rw [hlen2, hlen1]) z, hroot1]
  · intro z
    rw [hp z]
    by_cases hzi : z = i
    · rw [hzi, par_set_self u.subsets i _ hilt]
      constructor
      · intro hji
        exact absurd hji.symm hij
      · rintro ⟨_, hne2⟩
        exact absurd rfl hne2
    · rw [par_set_ne u.subsets i z _ (fun hiz => hzi hiz.symm)]
      constructor
      · intro hpz; exact ⟨hpz, hzi⟩
      · rintro ⟨hpz, _⟩; exact hpz
  · rw [hp i, par_set_self u.subsets i _ hilt]
  · rw [sz_set_self _ j _ hjlt1]
  · intro z hzj
    rw [sz_set_ne _ j z _ (fun hjz => hzj hjz.symm)]
    by_cases hzi : z = i
    · rw [hzi, sz_set_self u.subsets i _ hilt]
    · rw [sz_set_ne u.subsets i z _ (fun hiz => hzi hiz.symm)]

theorem mergeRoots_spec (u : UnionFind) (i j : Nat) (h : WFs u.subsets)
    (hi : par u.subsets i = i) (hj : par u.subsets j = j)
    (hilt : i < u.subsets.length) (hjlt : j < u.subsets.length) (hij : i ≠ j) :
    (mergeRoots u i j).subsets.length = u.subsets.length ∧
    WFs (mergeRoots u i j).subsets ∧
    (mergeRoots u i j).nb_subsets = u.nb_subsets - 1 ∧
    (∀ z, rootD (mergeRoots u i j).subsets z =
      if rootD u.subsets z = mrLoser u i j then mrWinner u i j else rootD u.subsets z) ∧
    (∀ z, (par (mergeRoots u i j).subsets z = z ↔
      (par u.subsets z = z ∧ z ≠ mrLoser u i j))) ∧
    par (mergeRoots u i j).subsets (mrLoser u i j) = mrWinner u i j ∧
    sz (mergeRoots u i j).subsets (mrWinner u i j) = sz u.subsets i + sz u.subsets j ∧
    (∀ z, z ≠ mrWinner u i j → sz (mergeRoots u i j).subsets z = sz u.subsets z) := by
  by_cases hsz : sz u.subsets i < sz u.subsets j
  · have hW : mrWinner u i j = j := by rw [mrWinner, if_pos hsz]
    have hL : mrLoser u i j = i := by rw [mrLoser, if_pos hsz]
    rw [mergeRoots, if_neg hij, if_pos hsz, hW, hL]
    obtain ⟨alen, awf, aroot, ariff, apar, aszw, aszo⟩ :=
      attach_spec u i j (sz u.subsets j + sz u.subsets i) h hi hj hilt hjlt hij
    exact ⟨alen, awf, rfl, aroot, ariff, apar, by rw [aszw]; exact Nat.add_comm _ _, aszo⟩
  · have hW : mrWinner u i j = i := by rw [mrWinner, if_neg hsz]
    have hL : mrLoser u i j = j := by rw [mrLoser, if_neg hsz]
    rw [mergeRoots, if_neg hij, if_neg hsz, hW, hL]
    obtain ⟨alen, awf, aroot, ariff, apar, aszw, aszo⟩ :=
      attach_spec u j i (sz u.subsets i + sz u.subsets j) h hj hi hjlt hilt
        (fun hji => hij hji.symm)
    exact ⟨alen, awf, rfl, aroot, ariff, apar, aszw, aszo⟩

theorem merge_spec (uf : UnionFind) (x y : Nat) (h : WFs uf.subsets)
    (hx : x < uf.subsets.length) (hy : y < uf.subsets.length) :
    WFs (uf.merge x y).subsets ∧
    (uf.merge x y).subsets.length = uf.subsets.length ∧
    (rootD uf.subsets x = rootD uf.subsets y →
      ((uf.merge x y).nb_subsets = uf.nb_subsets ∧
       (∀ z, rootD (uf.merge x y).subsets z = rootD uf.subsets z) ∧
       (∀ z, sz (uf.merge x y).subsets z = sz uf.subsets z) ∧
       (∀ z, (par (uf.merge x y).subsets z = z ↔ par uf.subsets z = z)))) ∧
    (¬ rootD uf.subsets x = rootD uf.subsets y →
      ((uf.merge x y).nb_subsets = uf.nb_subsets - 1 ∧
       (∀ z, rootD (uf.merge x y).subsets z =
         if rootD uf.subsets z = mLoser uf x y then mWinner uf x y
         else rootD uf.subsets z) ∧
       (∀ z, (par (uf.merge x y).subsets z = z ↔
         (par uf.subsets z = z ∧ z ≠ mLoser uf x y))) ∧
       par (uf.merge x y).subsets (mLoser uf x y) = mWinner uf x y ∧
       sz (uf.merge x y).subsets (mWinner uf x y) =
         sz uf.subsets (rootD uf.subsets x) + sz uf.subsets (rootD uf.subsets y) ∧
       (∀ z, z ≠ mWinner uf x y → sz (uf.merge x y).subsets z = sz uf.subsets z))) := by
  obtain ⟨hf1, hnb1, hlen1, hwf1, hroot1, hsz1, hriff1, _⟩ := find_spec uf x h
  obtain ⟨hf2, hnb2, hlen2, hwf2, hroot2, hsz2, hriff2, _⟩ :=
    find_spec (uf.find x).snd y hwf1
  have hfy : ((uf.find x).snd.find y).fst = rootD uf.subsets y := by
    rw [hf2, hroot1]
  have hmerge : uf.merge x y =
      mergeRoots ((uf.find x).snd.find y).snd (rootD uf.subsets x) (rootD uf.subsets y) := by
    rw [UnionFind.merge, hf1, hfy]
  rw [hmerge]
  have hlen21 : ((uf.find x).snd.find y).snd.subsets.length = uf.subsets.length := by
    rw [hlen2, hlen1]
  have hroot21 : ∀ z,
      rootD ((uf.find x).snd.find y).snd.subsets z = rootD uf.subsets z := by
    intro z; rw [hroot2, hroot1]
  have hsz21 : ∀ z, sz ((uf.find x).snd.find y).snd.subsets z = sz uf.subsets z := by
    intro z; rw [hsz2, hsz1]
  have hriff21 : ∀ z,
      (par ((uf.find x).snd.find y).snd.subsets z = z ↔ par uf.subsets z = z) :=
    fun z => (hriff2 z).trans (hriff1 z)
  by_cases hc : rootD uf.subsets x = rootD uf.subsets y
  · have hmr :
        mergeRoots ((uf.find x).snd.find y).snd (rootD uf.subsets x) (rootD uf.subsets y) =
          ((uf.find x).snd.find y).snd := by
      rw [mergeRoots, if_pos hc]
    rw [hmr]
    refine ⟨hwf2, hlen21, ?_, ?_⟩
    · intro _
      exact ⟨by rw [hnb2, hnb1], hroot21, hsz21, hriff21⟩
    · intro hcon; exact absurd hc hcon
  · have hIroot2 : par ((uf.find x).snd.find y).snd.subsets (rootD uf.subsets x) =
        rootD uf.subsets x :=
      (hriff21 _).mpr (rootD_isRoot uf.subsets h x)
    have hJroot2 : par ((uf.find x).snd.find y).snd.subsets (rootD uf.subsets y) =
        rootD uf.subsets y :=
      (hriff21 _).mpr (rootD_isRoot uf.subsets h y)
    have hIlt : rootD uf.subsets x < ((uf.find x).snd.find y).snd.subsets.length := by
      rw [hlen21]; exact rootD_lt uf.subsets h x hx
    have hJlt : rootD uf.subsets y < ((uf.find x).snd.find y).snd.subsets.length := by
      rw [hlen21]; exact rootD_lt uf.subsets h y hy
    obtain ⟨mlen, mwf, mnb, mroot, mriff, mpar, mszw, mszo⟩ :=
      mergeRoots_spec ((uf.find x).snd.find y).snd (rootD uf.subsets x)
        (rootD uf.subsets y) hwf2 hIroot2 hJroot2 hIlt hJlt hc
    have hLs : mrLoser ((uf.find x).snd.find y).snd (rootD uf.subsets x)
        (rootD uf.subsets y) = mLoser uf x y := by
      rw [mrLoser, mLoser, hsz21, hsz21]
    have hWs : mrWinner ((uf.find x).snd.find y).snd (rootD uf.subsets x)
        (rootD uf.subsets y) = mWinner uf x y := by
      rw [mrWinner, mWinner, hsz21, hsz21]
    simp only [hroot21, hsz21, hriff21, hLs, hWs] at mroot mriff mpar mszw mszo
    refine ⟨mwf, mlen.trans hlen21, ?_, ?_⟩
    · intro hcon; exact absurd hcon hc
    · intro _
      exact ⟨by rw [mnb, hnb2, hnb1], mroot, mriff, mpar, mszw, mszo⟩

theorem mLoser_cases (uf : UnionFind) (x y : Nat) :
    mLoser uf x y = rootD uf.subsets x ∨ mLoser uf x y = rootD uf.subsets y := by
  rw [mLoser]
  by_cases hs : sz uf.subsets (rootD uf.subsets x) < sz uf.subsets (rootD uf.subsets y)
  · rw [if_pos hs]; exact Or.inl rfl
  · rw [if_neg hs]; exact Or.inr rfl

theorem merge_mono (uf : UnionFind) (x y : Nat) (h : WFs uf.subsets)
    (hx : x < uf.subsets.length) (hy : y < uf.subsets.length) (a b : Nat)
    (hab : rootD uf.subsets a = rootD uf.subsets b) :
    rootD (uf.merge x y).subsets a = rootD (uf.merge x y).subsets b := by
  obtain ⟨_, _, hsame, hdiff⟩ := merge_spec uf x y h hx hy
  by_cases hc : rootD uf.subsets x = rootD uf.subsets y
  · obtain ⟨_, hroot, _, _⟩ := hsame hc
    rw [hroot, hroot, hab]
  · obtain ⟨_, hroot, _, _, _, _⟩ := hdiff hc
    rw [hroot, hroot, hab]

theorem merge_connects (uf : UnionFind) (x y : Nat) (h : WFs uf.subsets)
    (hx : x < uf.subsets.length) (hy : y < uf.subsets.length) :
    rootD (uf.merge x y).subsets x = rootD (uf.merge x y).subsets y := by
  obtain ⟨_, _, hsame, hdiff⟩ := merge_spec uf x y h hx hy
  by_cases hc : rootD uf.subsets x = rootD uf.subsets y
  · obtain ⟨_, hroot, _, _⟩ := hsame hc
    rw [hroot, hroot, hc]
  · obtain ⟨_, hroot, _, _, _, _⟩ := hdiff hc
    rw [hroot, hroot]
    by_cases hs : sz uf.subsets (rootD uf.subsets x) < sz uf.subsets (rootD uf.subsets y)
    · simp only [mLoser, mWinner, if_pos hs]
      simp
    · simp only [mLoser, mWinner, if_neg hs]
      simp

theorem merge_inv (uf : UnionFind) (x y : Nat) (hinv : UFInv uf)
    (hx : x < uf.subsets.length) (hy : y < uf.subsets.length) :
    UFInv (uf.merge x y) ∧
    ((uf.merge x y).nb_subsets = uf.nb_subsets ∨
      (uf.merge x y).nb_subsets + 1 = uf.nb_subsets) := by
  obtain ⟨hwf, hlen, hsame, hdiff⟩ := merge_spec uf x y hinv.1 hx hy
  by_cases hc : rootD uf.subsets x = rootD uf.subsets y
  · obtain ⟨hnb, _, _, hriff⟩ := hsame hc
    refine ⟨⟨hwf, ?_⟩, Or.inl hnb⟩
    rw [nbRoots_congr_iff _ uf.subsets hlen hriff, hinv.2, hnb]
  · obtain ⟨hnb, _, hriff, _, _, _⟩ := hdiff hc
    have hLroot : par uf.subsets (mLoser uf x y) = mLoser uf x y := by
      rcases mLoser_cases uf x y with hl | hl
      · rw [hl]; exact rootD_isRoot uf.subsets hinv.1 x
      · rw [hl]; exact rootD_isRoot uf.subsets hinv.1 y
    have hLlt : mLoser uf x y < uf.subsets.length := by
      rcases mLoser_cases uf x y with hl | hl
      · rw [hl]; exact rootD_lt uf.subsets hinv.1 x hx
      · rw [hl]; exact rootD_lt uf.subsets hinv.1 y hy
    have herase := nbRoots_erase uf.subsets (uf.merge x y).subsets hlen.symm
      (mLoser uf x y) hriff hLroot hLlt
    rw [hinv.2] at herase
    refine ⟨⟨hwf, ?_⟩, Or.inr ?_⟩
    · omega
    · omega

theorem reach_inv (uf : UnionFind) (h : Reach uf) : UFInv uf := by
  induction h with
  | init n => exact init_inv n
  | find uf x hr hx ih => exact find_inv uf x ih
  | merge uf x y hr hx hy ih => exact (merge_inv uf x y ih hx hy).1

/-! Connectivity machinery over the equivalence closure. -/

theorem eqvGen_lift {r r2 : Nat → Nat → Prop}
    (h : ∀ a b, r a b → Relation.EqvGen r2 a b) :
    ∀ a b, Relation.EqvGen r a b → Relation.EqvGen r2 a b := by
  intro a b hg
  induction hg with
  | rel p q hr => exact h p q hr
  | refl p => exact Relation.EqvGen.refl p
  | symm p q _ ih => exact Relation.EqvGen.symm p q ih
  | trans p q w _ _ ih1 ih2 => exact Relation.EqvGen.trans p q w ih1 ih2

theorem eqvGen_rootEq (s : List Subset) (a b : Nat)
    (h : Relation.EqvGen (fun u v => rootD s u = rootD s v) a b) :
    rootD s a = rootD s b := by
  induction h with
  | rel _ _ hr => exact hr
  | refl _ => rfl
  | symm _ _ _ ih => exact ih.symm
  | trans _ _ _ _ _ ih1 ih2 => exact ih1.trans ih2

theorem any_perm {α : Type} (l1 l2 : List α) (hp : l1.Perm l2) (f : α → Bool) :
    l1.any f = l2.any f := by
  cases h2 : l2.any f
  · cases h1 : l1.any f
    · rfl
    · exfalso
      obtain ⟨e, he, hf⟩ := List.any_eq_true.mp h1
      have hcon : l2.any f = true := List.any_eq_true.mpr ⟨e, (hp.mem_iff).mp he, hf⟩
      rw [h2] at hcon
      exact Bool.noConfusion hcon
  · obtain ⟨e, he, hf⟩ := List.any_eq_true.mp h2
    exact List.any_eq_true.mpr ⟨e, (hp.mem_iff).mpr he, hf⟩

theorem edgeMem_perm (es1 es2 : List Edge) (hp : es1.Perm es2) (a b : Nat) :
    edgeMem es1 a b = edgeMem es2 a b :=
  any_perm es1 es2 hp _

theorem edgeMem_cons (e : Edge) (es : List Edge) (a b : Nat) :
    edgeMem (e :: es) a b = true ↔
      ((e.tail = a ∧ e.head = b) ∨ (e.tail = b ∧ e.head = a) ∨
        edgeMem es a b = true) := by
  have hsplit : ((e.tail == a && e.head == b) || (e.tail == b && e.head == a)) = true ↔
      ((e.tail = a ∧ e.head = b) ∨ (e.tail = b ∧ e.head = a)) := by
    simp [Bool.or_eq_true, Bool.and_eq_true, beq_iff_eq]
  rw [edgeMem, edgeMem, List.any_cons, Bool.or_eq_true, hsplit]
  exact or_assoc

theorem conn_perm (uf : UnionFind) (es1 es2 : List Edge) (hp : es1.Perm es2)
    (hc : ConnUF uf es1) : ConnUF uf es2 := by
  intro a b ha hb
  refine eqvGen_lift ?_ a b (hc a b ha hb)
  intro p q hr
  rcases hr with hroot | hedge
  · exact Relation.EqvGen.rel p q (Or.inl hroot)
  · refine Relation.EqvGen.rel p q (Or.inr ?_)
    rw [← edgeMem_perm es1 es2 hp]
    exact hedge

theorem conn_step (uf : UnionFind) (e : Edge) (es : List Edge) (h : WFs uf.subsets)
    (hx : e.tail < uf.subsets.length) (hy : e.head < uf.subsets.length)
    (hc : ConnUF uf (e :: es)) : ConnUF (uf.merge e.tail e.head) es := by
  intro a b ha hb
  have hlen := (merge_spec uf e.tail e.head h hx hy).2.1
  rw [hlen] at ha hb
  refine eqvGen_lift ?_ a b (hc a b ha hb)
  intro p q hr
  rcases hr with hroot | hedge
  · exact Relation.EqvGen.rel p q
      (Or.inl (merge_mono uf e.tail e.head h hx hy p q hroot))
  · rcases (edgeMem_cons e es p q).mp hedge with ⟨h1, h2⟩ | ⟨h1, h2⟩ | hrest
    · rw [← h1, ← h2]
      exact Relation.EqvGen.rel _ _
        (Or.inl (merge_connects uf e.tail e.head h hx hy))
    · rw [← h1, ← h2]
      exact Relation.EqvGen.rel _ _
        (Or.inl (merge_connects uf e.tail e.head h hx hy).symm)
    · exact Relation.EqvGen.rel p q (Or.inr hrest)

theorem connRel_nil (uf : UnionFind) (a b : Nat) (h : connRel uf [] a b) :
    rootD uf.subsets a = rootD uf.subsets b := by
  rcases h with hr | he
  · exact hr
  · rw [edgeMem, List.any_nil] at he
    exact Bool.noConfusion he

theorem conn_nil_nb (uf : UnionFind) (hinv : UFInv uf)
    (hlen : uf.subsets.length ≠ 0) (hc : ConnUF uf []) : uf.nb_subsets = 1 := by
  have hall : ∀ z, z < uf.subsets.length →
      rootD uf.subsets z = rootD uf.subsets 0 := by
    intro z hz
    exact eqvGen_rootEq uf.subsets z 0
      (eqvGen_lift (fun p q hr => Relation.EqvGen.rel p q (connRel_nil uf p q hr)) z 0
        (hc z 0 hz (by omega)))
  have h0lt : (0 : Nat) < uf.subsets.length := by omega
  have hr0 : rootD uf.subsets 0 < uf.subsets.length := rootD_lt _ hinv.1 0 h0lt
  have hroot0 : par uf.subsets (rootD uf.subsets 0) = rootD uf.subsets 0 :=
    rootD_isRoot _ hinv.1 0
  have hset : (Finset.range uf.subsets.length).filter (fun z => par uf.subsets z = z) =
      {rootD uf.subsets 0} := by
    apply Finset.ext
    intro t
    simp only [Finset.mem_filter, Finset.mem_range, Finset.mem_singleton]
    constructor
    · rintro ⟨ht, hp⟩
      have hsame := hall t ht
      rw [rootD_of_root _ t hp] at hsame
      exact hsame
    · intro ht
      rw [ht]
      exact ⟨hr0, hroot0⟩
  have hone : nbRoots uf.subsets = 1 := by
    rw [nbRoots, hset, Finset.card_singleton]
  rw [← hinv.2, hone]

/-! The in-place swap is a permutation. -/

theorem getD_cons_set_perm (d : Edge) :
    ∀ (t : List Edge) (j : Nat) (a : Edge), j < t.length →
      (t.getD j d :: t.set j a).Perm (a :: t) := by
  intro t
  induction t with
  | nil => intro j a hj; simp at hj
  | cons b t2 ih =>
    intro j a hj
    cases j with
    | zero => exact List.Perm.swap a b t2
    | succ j =>
      show ((t2.getD j d) :: b :: t2.set j a).Perm (a :: b :: t2)
      have h1 : ((t2.getD j d) :: b :: t2.set j a).Perm (b :: t2.getD j d :: t2.set j a) :=
        List.Perm.swap b (t2.getD j d) (t2.set j a)
      have h2 := ih j a (by simp at hj; omega)
      have h3 : (b :: t2.getD j d :: t2.set j a).Perm (b :: a :: t2) := h2.cons b
      have h4 : (b :: a :: t2).Perm (a :: b :: t2) := List.Perm.swap a b t2
      exact (h1.trans h3).trans h4

theorem swapFront_perm (l : List Edge) (r : Nat) (hr : r < l.length) :
    (swapFront l r).Perm l := by
  cases l with
  | nil => simp at hr
  | cons a t =>
    cases r with
    | zero =>
      show (a :: t).Perm (a :: t)
      exact List.Perm.refl _
    | succ j =>
      show ((t.getD j ⟨0, 0⟩) :: t.set j a).Perm (a :: t)
      exact getD_cons_set_perm _ t j a (by simp at hr; omega)

theorem swapFront_length (l : List Edge) (r : Nat) :
    (swapFront l r).length = l.length := by
  rw [swapFront, List.length_set, List.length_set]

/-! Single-step unfoldings of the contraction loop. -/

theorem contractLoop_done (k fuel : Nat) (uf : UnionFind) (pre suf : List Edge)
    (rand : List Nat) (hnb : uf.nb_subsets = k) :
    contractLoop k fuel uf pre suf rand = ⟨uf, pre, suf, rand⟩ := by
  rw [contractLoop.eq_def]
  dsimp only
  rw [if_pos hnb]

theorem contractLoop_step (k fuel2 : Nat) (uf : UnionFind) (pre : List Edge)
    (a : Edge) (tl : List Edge) (rand : List Nat) (hnb : ¬ uf.nb_subsets = k) :
    contractLoop k (fuel2 + 1) uf pre (a :: tl) rand =
      contractLoop k fuel2
        (uf.merge ((swapFront (a :: tl) (rand.headD 0 % (a :: tl).length)).headD ⟨0, 0⟩).tail
          ((swapFront (a :: tl) (rand.headD 0 % (a :: tl).length)).headD ⟨0, 0⟩).head)
        (pre ++ [(swapFront (a :: tl) (rand.headD 0 % (a :: tl).length)).headD ⟨0, 0⟩])
        ((swapFront (a :: tl) (rand.headD 0 % (a :: tl).length)).drop 1)
        (rand.drop 1) := by
  rw [contractLoop.eq_def]
  dsimp only
  rw [if_neg hnb]

/-- Master specification of the shared contraction loop under the spec's
preconditions: it stops with exactly k subsets, preserves the state
invariant, permutes (consumed ++ remaining) edges, only coarsens the
partition, and every newly consumed edge has merged endpoints. -/
theorem contractLoop_spec (k : Nat) :
    ∀ N suf, suf.length ≤ N → ∀ uf pre rand fuel, suf.length ≤ fuel →
      UFInv uf → ConnUF uf suf → edgesOk uf suf → 2 ≤ k → k ≤ uf.nb_subsets →
      (contractLoop k fuel uf pre suf rand).uf.nb_subsets = k ∧
      UFInv (contractLoop k fuel uf pre suf rand).uf ∧
      (contractLoop k fuel uf pre suf rand).uf.subsets.length = uf.subsets.length ∧
      ((contractLoop k fuel uf pre suf rand).consumed ++
        (contractLoop k fuel uf pre suf rand).remaining).Perm (pre ++ suf) ∧
      (∀ a b, rootD uf.subsets a = rootD uf.subsets b →
        rootD (contractLoop k fuel uf pre suf rand).uf.subsets a =
          rootD (contractLoop k fuel uf pre suf rand).uf.subsets b) ∧
      (∀ e, e ∈ (contractLoop k fuel uf pre suf rand).consumed → e ∈ pre ∨
        rootD (contractLoop k fuel uf pre suf rand).uf.subsets e.tail =
          rootD (contractLoop k fuel uf pre suf rand).uf.subsets e.head) := by
  intro N
  induction N with
  | zero =>
    intro suf hN uf pre rand fuel _ hinv hconn _ h2 hk
    have hsuf : suf = [] := List.length_eq_zero.mp (by omega)
    subst hsuf
    by_cases hnb : uf.nb_subsets = k
    · rw [contractLoop_done k fuel uf pre [] rand hnb]
      exact ⟨hnb, hinv, rfl, List.Perm.refl _, fun a b hab => hab,
        fun e he => Or.inl he⟩
    · exfalso
      by_cases hlen0 : uf.subsets.length = 0
      · have hz : nbRoots uf.subsets = 0 := by
          rw [nbRoots, hlen0]
          rfl
        rw [hinv.2] at hz
        omega
      · have hone := conn_nil_nb uf hinv hlen0 hconn
        omega
  | succ N ih =>
    intro suf hN uf pre rand fuel hfuel hinv hconn hok h2 hk
    by_cases hnb : uf.nb_subsets = k
    · rw [contractLoop_done k fuel uf pre suf rand hnb]
      exact ⟨hnb, hinv, rfl, List.Perm.refl _, fun a b hab => hab,
        fun e he => Or.inl he⟩
    · cases suf with
      | nil =>
        exfalso
        by_cases hlen0 : uf.subsets.length = 0
        · have hz : nbRoots uf.subsets = 0 := by
            rw [nbRoots, hlen0]
            rfl
          rw [hinv.2] at hz
          omega
        · have hone := conn_nil_nb uf hinv hlen0 hconn
          omega
      | cons a tl =>
        cases fuel with
        | zero => simp at hfuel
        | succ fuel2 =>
          rw [contractLoop_step k fuel2 uf pre a tl rand hnb]
          have hpos : 0 < (a :: tl).length := by simp
          have hrlt : rand.headD 0 % (a :: tl).length < (a :: tl).length :=
            Nat.mod_lt _ hpos
          have hperm : (swapFront (a :: tl) (rand.headD 0 % (a :: tl).length)).Perm (a :: tl) :=
            swapFront_perm _ _ hrlt
          have hs2len : (swapFront (a :: tl) (rand.headD 0 % (a :: tl).length)).length =
              tl.length + 1 := by
            rw [swapFront_length]
            rfl
          obtain ⟨e0, s3, hs23⟩ : ∃ e0 s3,
              swapFront (a :: tl) (rand.headD 0 % (a :: tl).length) = e0 :: s3 := by
            cases hsw : swapFront (a :: tl) (rand.headD 0 % (a :: tl).length) with
            | nil => rw [hsw] at hs2len; simp at hs2len
            | cons e0 s3 => exact ⟨e0, s3, rfl⟩
          rw [hs23]
          have hhead : (e0 :: s3).headD (⟨0, 0⟩ : Edge) = e0 := rfl
          have hdrop : (e0 :: s3).drop 1 = s3 := rfl
          rw [hhead, hdrop]
          have he0mem : e0 ∈ a :: tl := hperm.mem_iff.mp (by rw [hs23]; exact List.mem_cons_self e0 s3)
          obtain ⟨htlt, hhlt⟩ := hok e0 he0mem
          have hinv1 := (merge_inv uf e0.tail e0.head hinv htlt hhlt).1
          have hnbc := (merge_inv uf e0.tail e0.head hinv htlt hhlt).2
          have hlen1 : (uf.merge e0.tail e0.head).subsets.length = uf.subsets.length :=
            (merge_spec uf e0.tail e0.head hinv.1 htlt hhlt).2.1
          have hconn2 : ConnUF uf (e0 :: s3) := by
            refine conn_perm uf (a :: tl) (e0 :: s3) ?_ hconn
            rw [← hs23]
            exact hperm.symm
          have hconn1 : ConnUF (uf.merge e0.tail e0.head) s3 :=
            conn_step uf e0 s3 hinv.1 htlt hhlt hconn2
          have hok1 : edgesOk (uf.merge e0.tail e0.head) s3 := by
            intro e he
            have hemem : e ∈ a :: tl := by
              refine hperm.mem_iff.mp ?_
              rw [hs23]
              exact List.mem_cons_of_mem e0 he
            obtain ⟨h1, h2x⟩ := hok e hemem
            rw [hlen1]
            exact ⟨h1, h2x⟩
          have hs3len : s3.length = tl.length := by
            rw [hs23] at hs2len
            simp at hs2len
            exact hs2len
          have hk1 : k ≤ (uf.merge e0.tail e0.head).nb_subsets := by
            rcases hnbc with hh | hh <;> omega
          have hNle : s3.length ≤ N := by
            simp at hN
            omega
          have hfl2 : s3.length ≤ fuel2 := by
            simp at hfuel
            omega
          obtain ⟨c1, c2, c3, c4, c5, c6⟩ :=
            ih s3 hNle (uf.merge e0.tail e0.head) (pre ++ [e0]) (rand.drop 1) fuel2
              hfl2 hinv1 hconn1 hok1 h2 hk1
          refine ⟨c1, c2, c3.trans hlen1, ?_, ?_, ?_⟩
          · refine c4.trans ?_
            have heq : (pre ++ [e0]) ++ s3 = pre ++ (e0 :: s3) := by
              rw [List.append_assoc, List.singleton_append]
            rw [heq, ← hs23]
            exact List.Perm.append_left pre hperm
          · intro p q hpq
            exact c5 p q (merge_mono uf e0.tail e0.head hinv.1 htlt hhlt p q hpq)
          · intro e he
            rcases c6 e he with hin | hroot
            · rcases List.mem_append.mp hin with hin2 | hin2
              · exact Or.inl hin2
              · have he0 : e = e0 := List.mem_singleton.mp hin2
                rw [he0]
                exact Or.inr (c5 e0.tail e0.head
                  (merge_connects uf e0.tail e0.head hinv.1 htlt hhlt))
            · exact Or.inr hroot

theorem connected_spec (uf : UnionFind) (x y : Nat) (h : WFs uf.subsets) :
    ((uf.connected x y).fst = true ↔ rootD uf.subsets x = rootD uf.subsets y) ∧
    WFs (uf.connected x y).snd.subsets ∧
    (uf.connected x y).snd.subsets.length = uf.subsets.length ∧
    (uf.connected x y).snd.nb_subsets = uf.nb_subsets ∧
    (∀ z, rootD (uf.connected x y).snd.subsets z = rootD uf.subsets z) := by
  obtain ⟨hf1, hnb1, hlen1, hwf1, hroot1, hsz1, hriff1, _⟩ := find_spec uf x h
  obtain ⟨hf2, hnb2, hlen2, hwf2, hroot2, hsz2, hriff2, _⟩ :=
    find_spec (uf.find x).snd y hwf1
  have hsnd : (uf.connected x y).snd = ((uf.find x).snd.find y).snd := rfl
  have hfst : (uf.connected x y).fst =
      ((uf.find x).fst == ((uf.find x).snd.find y).fst) := rfl
  rw [hsnd, hfst]
  refine ⟨?_, hwf2, by rw [hlen2, hlen1], by rw [hnb2, hnb1],
    fun z => by rw [hroot2, hroot1]⟩
  rw [hf1, hf2, hroot1]
  exact beq_iff_eq

theorem crossCount_congr (s1 s2 : List Subset) (hp : ∀ z, rootD s1 z = rootD s2 z)
    (es : List Edge) : crossCount s1 es = crossCount s2 es := by
  rw [crossCount, crossCount]
  apply List.countP_congr
  intro e _
  rw [hp e.tail, hp e.head]

theorem crossFilter_congr (s1 s2 : List Subset) (hp : ∀ z, rootD s1 z = rootD s2 z)
    (es : List Edge) : crossFilter s1 es = crossFilter s2 es := by
  rw [crossFilter, crossFilter]
  apply List.filter_congr
  intro e _
  rw [hp e.tail, hp e.head]

theorem countCrossing_spec (uf : UnionFind) (es : List Edge) (h : WFs uf.subsets) :
    (countCrossing uf es).fst = crossCount uf.subsets es ∧
    WFs (countCrossing uf es).snd.subsets ∧
    (countCrossing uf es).snd.subsets.length = uf.subsets.length ∧
    (countCrossing uf es).snd.nb_subsets = uf.nb_subsets ∧
    (∀ z, rootD (countCrossing uf es).snd.subsets z = rootD uf.subsets z) := by
  induction es generalizing uf with
  | nil => exact ⟨rfl, h, rfl, rfl, fun _ => rfl⟩
  | cons e es ih =>
    obtain ⟨hciff, hcwf, hclen, hcnb, hcroot⟩ := connected_spec uf e.tail e.head h
    obtain ⟨ih1, ih2, ih3, ih4, ih5⟩ := ih (uf.connected e.tail e.head).snd hcwf
    rw [countCrossing]
    refine ⟨?_, ih2, by rw [ih3, hclen], by rw [ih4, hcnb],
      fun z => by rw [ih5, hcroot]⟩
    rw [ih1, crossCount_congr _ _ hcroot es]
    have hcons : crossCount uf.subsets (e :: es) = crossCount uf.subsets es +
        (if (!(rootD uf.subsets e.tail == rootD uf.subsets e.head)) = true
          then 1 else 0) := by
      rw [crossCount, crossCount, List.countP_cons]
    rw [hcons]
    by_cases hc : rootD uf.subsets e.tail = rootD uf.subsets e.head
    · have hb : (uf.connected e.tail e.head).fst = true := hciff.mpr hc
      rw [hb, hc]
      simp
    · have hb : (uf.connected e.tail e.head).fst = false := by
        cases hcase : (uf.connected e.tail e.head).fst
        · rfl
        · exact absurd (hciff.mp hcase) hc
      have hbeq : (rootD uf.subsets e.tail == rootD uf.subsets e.head) = false := by
        cases hcase : (rootD uf.subsets e.tail == rootD uf.subsets e.head)
        · rfl
        · exact absurd (beq_iff_eq.mp hcase) hc
      rw [hb, hbeq]
      simp [Nat.add_comm]

theorem filterCrossing_spec (uf : UnionFind) (es : List Edge) (h : WFs uf.subsets) :
    (filterCrossing uf es).fst = crossFilter uf.subsets es ∧
    WFs (filterCrossing uf es).snd.subsets ∧
    (filterCrossing uf es).snd.subsets.length = uf.subsets.length ∧
    (filterCrossing uf es).snd.nb_subsets = uf.nb_subsets ∧
    (∀ z, rootD (filterCrossing uf es).snd.subsets z = rootD uf.subsets z) := by
  induction es generalizing uf with
  | nil => exact ⟨rfl, h, rfl, rfl, fun _ => rfl⟩
  | cons e es ih =>
    obtain ⟨hciff, hcwf, hclen, hcnb, hcroot⟩ := connected_spec uf e.tail e.head h
    obtain ⟨ih1, ih2, ih3, ih4, ih5⟩ := ih (uf.connected e.tail e.head).snd hcwf
    rw [filterCrossing]
    refine ⟨?_, ih2, by rw [ih3, hclen], by rw [ih4, hcnb],
      fun z => by rw [ih5, hcroot]⟩
    rw [ih1, crossFilter_congr _ _ hcroot es]
    have hcons : crossFilter uf.subsets (e :: es) =
        if (!(rootD uf.subsets e.tail == rootD uf.subsets e.head)) = true
        then e :: crossFilter uf.subsets es else crossFilter uf.subsets es := by
      rw [crossFilter, crossFilter, List.filter_cons]
    rw [hcons]
    by_cases hc : rootD uf.subsets e.tail = rootD uf.subsets e.head
    · have hb : (uf.connected e.tail e.head).fst = true := hciff.mpr hc
      have hbeq : (rootD uf.subsets e.tail == rootD uf.subsets e.head) = true :=
        beq_iff_eq.mpr hc
      rw [hb, hbeq]
      simp
    · have hb : (uf.connected e.tail e.head).fst = false := by
        cases hcase : (uf.connected e.tail e.head).fst
        · rfl
        · exact absurd (hciff.mp hcase) hc
      have hbeq : (rootD uf.subsets e.tail == rootD uf.subsets e.head) = false := by
        cases hcase : (rootD uf.subsets e.tail == rootD uf.subsets e.head)
        · rfl
        · exact absurd (beq_iff_eq.mp hcase) hc
      rw [hb, hbeq]
      simp

theorem rnShift_ge (N s : Nat) : N / 2 ^ s ≤ rnShift N s := by
  rw [rnShift]
  split
  · exact Nat.le_refl _
  · split
    · omega
    · split
      · exact Nat.le_refl _
      · omega

theorem rnShift_le (N s : Nat) : rnShift N s ≤ N / 2 ^ s + 1 := by
  rw [rnShift]
  split
  · omega
  · split
    · omega
    · split
      · omega
      · omega

theorem ks_key (n : Nat) (hn : 7 ≤ n) :
    n * invSqrt2Num * (2 ^ 52 + 1) ≤ (n - 2) * 2 ^ 105 := by
  obtain ⟨d, rfl⟩ : ∃ d, n = d + 7 := ⟨n - 7, by omega⟩
  have h1 : invSqrt2Num = 6369051672525772 := rfl
  have h2 : (2 : Nat) ^ 52 + 1 = 4503599627370497 := by norm_num
  have h3 : (2 : Nat) ^ 105 = 40564819207303340847894502572032 := by norm_num
  have h4 : d + 7 - 2 = d + 5 := by omega
  rw [h1, h2, h3, h4]
  nlinarith

theorem ks_pow_le (n : Nat) (hn : 1 ≤ n) :
    2 ^ ((Nat.log 2 (n * invSqrt2Num) + 1) - 53) * 2 ^ 52 ≤ n * invSqrt2Num := by
  have hNne : n * invSqrt2Num ≠ 0 :=
    Nat.mul_ne_zero (by omega) (by norm_num [invSqrt2Num])
  have hN52 : 2 ^ 52 ≤ n * invSqrt2Num := by
    have h1 : 2 ^ 52 ≤ invSqrt2Num := by norm_num [invSqrt2Num]
    have h2 : invSqrt2Num ≤ n * invSqrt2Num :=
      Nat.le_mul_of_pos_left _ (by omega)
    omega
  by_cases hs : (Nat.log 2 (n * invSqrt2Num) + 1) - 53 = 0
  · rw [hs, pow_zero, one_mul]
    exact hN52
  · have hsum : ((Nat.log 2 (n * invSqrt2Num) + 1) - 53) + 52 =
        Nat.log 2 (n * invSqrt2Num) := by omega
    calc 2 ^ ((Nat.log 2 (n * invSqrt2Num) + 1) - 53) * 2 ^ 52
        = 2 ^ (((Nat.log 2 (n * invSqrt2Num) + 1) - 53) + 52) := (pow_add 2 _ _).symm
      _ = 2 ^ Nat.log 2 (n * invSqrt2Num) := by rw [hsum]
      _ ≤ n * invSqrt2Num := Nat.pow_log_le_self 2 hNne

theorem rn_bound (N s K : Nat) (h52 : 2 ^ s * 2 ^ 52 ≤ N)
    (hkey : N * (2 ^ 52 + 1) ≤ K * 2 ^ 105) :
    rnShift N s * 2 ^ s ≤ K * 2 ^ 53 := by
  have h1 := rnShift_le N s
  have h2 : N / 2 ^ s * 2 ^ s ≤ N := Nat.div_mul_le_self _ _
  have h3 : rnShift N s * 2 ^ s ≤ N + 2 ^ s := by
    calc rnShift N s * 2 ^ s ≤ (N / 2 ^ s + 1) * 2 ^ s := Nat.mul_le_mul_right _ h1
      _ = N / 2 ^ s * 2 ^ s + 2 ^ s := by ring
      _ ≤ N + 2 ^ s := by omega
  have h4 : (rnShift N s * 2 ^ s) * 2 ^ 52 ≤ (K * 2 ^ 53) * 2 ^ 52 := by
    calc (rnShift N s * 2 ^ s) * 2 ^ 52 ≤ (N + 2 ^ s) * 2 ^ 52 :=
        Nat.mul_le_mul_right _ h3
      _ = N * 2 ^ 52 + 2 ^ s * 2 ^ 52 := by ring
      _ ≤ N * 2 ^ 52 + N := by omega
      _ = N * (2 ^ 52 + 1) := by ring
      _ ≤ K * 2 ^ 105 := hkey
      _ = (K * 2 ^ 53) * 2 ^ 52 := by
          rw [show (2 : Nat) ^ 105 = 2 ^ 53 * 2 ^ 52 by norm_num]
          ring
  exact Nat.le_of_mul_le_mul_right h4 (pow_pos (by norm_num) 52)

theorem fpCeilMul_le (n : Nat) (hn : 7 ≤ n) : fpCeilMul n ≤ n - 2 := by
  have h52 : 2 ^ ((Nat.log 2 (n * invSqrt2Num) + 1) - 53) * 2 ^ 52 ≤ n * invSqrt2Num :=
    ks_pow_le n (by omega)
  have hb := rn_bound (n * invSqrt2Num) ((Nat.log 2 (n * invSqrt2Num) + 1) - 53)
    (n - 2) h52 (ks_key n hn)
  rw [fpCeilMul]
  split
  · have heq : rnShift (n * invSqrt2Num) ((Nat.log 2 (n * invSqrt2Num) + 1) - 53) *
        2 ^ ((Nat.log 2 (n * invSqrt2Num) + 1) - 53) =
        (rnShift (n * invSqrt2Num) ((Nat.log 2 (n * invSqrt2Num) + 1) - 53) *
          2 ^ ((Nat.log 2 (n * invSqrt2Num) + 1) - 53 - 53)) * 2 ^ 53 := by
      rw [mul_assoc, ← pow_add]
      congr 2
      omega
    rw [heq] at hb
    exact Nat.le_of_mul_le_mul_right hb (pow_pos (by norm_num) 53)
  · rename_i hscase
    have hslt : (Nat.log 2 (n * invSqrt2Num) + 1) - 53 < 53 := by omega
    have hMB : rnShift (n * invSqrt2Num) ((Nat.log 2 (n * invSqrt2Num) + 1) - 53) ≤
        (n - 2) * 2 ^ (53 - ((Nat.log 2 (n * invSqrt2Num) + 1) - 53)) := by
      have heq2 : (n - 2) * 2 ^ 53 =
          ((n - 2) * 2 ^ (53 - ((Nat.log 2 (n * invSqrt2Num) + 1) - 53))) *
            2 ^ ((Nat.log 2 (n * invSqrt2Num) + 1) - 53) := by
        rw [mul_assoc, ← pow_add]
        congr 2
        omega
      rw [heq2] at hb
      exact Nat.le_of_mul_le_mul_right hb (pow_pos (by norm_num) _)
    have hBpos : 0 < 2 ^ (53 - ((Nat.log 2 (n * invSqrt2Num) + 1) - 53)) :=
      pow_pos (by norm_num) _
    calc (rnShift (n * invSqrt2Num) ((Nat.log 2 (n * invSqrt2Num) + 1) - 53) +
          (2 ^ (53 - ((Nat.log 2 (n * invSqrt2Num) + 1) - 53)) - 1)) /
          2 ^ (53 - ((Nat.log 2 (n * invSqrt2Num) + 1) - 53))
        ≤ ((2 ^ (53 - ((Nat.log 2 (n * invSqrt2Num) + 1) - 53)) - 1) +
          (n - 2) * 2 ^ (53 - ((Nat.log 2 (n * invSqrt2Num) + 1) - 53))) /
          2 ^ (53 - ((Nat.log 2 (n * invSqrt2Num) + 1) - 53)) :=
        Nat.div_le_div_right (by omega)
      _ = (2 ^ (53 - ((Nat.log 2 (n * invSqrt2Num) + 1) - 53)) - 1) /
          2 ^ (53 - ((Nat.log 2 (n * invSqrt2Num) + 1) - 53)) + (n - 2) :=
        Nat.add_mul_div_right _ _ hBpos
      _ = n - 2 := by
          rw [Nat.div_eq_of_lt (by omega)]
          omega

theorem fpCeilMul_pos (n : Nat) (hn : 1 ≤ n) : 1 ≤ fpCeilMul n := by
  have h52 := ks_pow_le n hn
  have hMge := rnShift_ge (n * invSqrt2Num) ((Nat.log 2 (n * invSqrt2Num) + 1) - 53)
  have hspos : 0 < 2 ^ ((Nat.log 2 (n * invSqrt2Num) + 1) - 53) :=
    pow_pos (by norm_num) _
  have hM1 : 1 ≤ rnShift (n * invSqrt2Num) ((Nat.log 2 (n * invSqrt2Num) + 1) - 53) := by
    have hq : 1 ≤ (n * invSqrt2Num) / 2 ^ ((Nat.log 2 (n * invSqrt2Num) + 1) - 53) := by
      rw [Nat.le_div_iff_mul_le hspos]
      have hle : 2 ^ ((Nat.log 2 (n * invSqrt2Num) + 1) - 53) ≤
          2 ^ ((Nat.log 2 (n * invSqrt2Num) + 1) - 53) * 2 ^ 52 :=
        Nat.le_mul_of_pos_right _ (pow_pos (by norm_num) 52)
      omega
    omega
  rw [fpCeilMul]
  split
  · have h1 : 0 < 2 ^ ((Nat.log 2 (n * invSqrt2Num) + 1) - 53 - 53) :=
      pow_pos (by norm_num) _
    exact Nat.mul_pos (by omega) h1
  · have hBpos : 0 < 2 ^ (53 - ((Nat.log 2 (n * invSqrt2Num) + 1) - 53)) :=
      pow_pos (by norm_num) _
    rw [Nat.le_div_iff_mul_le hBpos]
    omega

theorem ks_t_ge2 (n : Nat) (hn : 1 ≤ n) : 2 ≤ ks_t n := by
  have h := fpCeilMul_pos n hn
  rw [ks_t]
  omega

theorem ks_t_lt (n : Nat) (hn : 7 ≤ n) : ks_t n < n := by
  have h := fpCeilMul_le n hn
  rw [ks_t]
  omega

/-- Correctness of karger_union_find on connected valid inputs: the
reported cut_size is exactly the crossing-edge count of the whole original
edge list in the returned 2-subset partition, and is at most the edge
count. -/
theorem karger_correct (g : EVGraph) (rand : List Nat)
    (hconn : ConnUF (UnionFind.init g.n) g.edges)
    (hok : edgesOk (UnionFind.init g.n) g.edges) (hn : 2 ≤ g.n) :
    crossCount (karger_union_find g rand).fst.uf.subsets g.edges =
      (karger_union_find g rand).fst.cut_size ∧
    (karger_union_find g rand).fst.cut_size ≤ g.edges.length ∧
    (karger_union_find g rand).fst.uf.nb_subsets = 2 := by
  have hnb0 : (UnionFind.init g.n).nb_subsets = g.n := rfl
  obtain ⟨c1, c2, c3, c4, c5, c6⟩ :=
    contractLoop_spec 2 g.edges.length g.edges (Nat.le_refl _) (UnionFind.init g.n) [] rand
      g.edges.length (Nat.le_refl _) (init_inv g.n) hconn hok (Nat.le_refl 2)
      (by rw [hnb0]; exact hn)
  obtain ⟨d1, d2, d3, d4, d5⟩ :=
    countCrossing_spec
      (contractLoop 2 g.edges.length (UnionFind.init g.n) [] g.edges rand).uf
      (contractLoop 2 g.edges.length (UnionFind.init g.n) [] g.edges rand).remaining
      c2.1
  have hfst_cut : (karger_union_find g rand).fst.cut_size =
      (countCrossing (contractLoop 2 g.edges.length (UnionFind.init g.n) [] g.edges rand).uf
        (contractLoop 2 g.edges.length (UnionFind.init g.n) [] g.edges rand).remaining).fst :=
    rfl
  have hfst_uf : (karger_union_find g rand).fst.uf =
      (countCrossing (contractLoop 2 g.edges.length (UnionFind.init g.n) [] g.edges rand).uf
        (contractLoop 2 g.edges.length (UnionFind.init g.n) [] g.edges rand).remaining).snd :=
    rfl
  have hperm : ((contractLoop 2 g.edges.length (UnionFind.init g.n) [] g.edges rand).consumed ++
      (contractLoop 2 g.edges.length (UnionFind.init g.n) [] g.edges rand).remaining).Perm
        g.edges := by
    have hc := c4
    rwa [List.nil_append] at hc
  rw [hfst_cut, hfst_uf]
  refine ⟨?_, ?_, ?_⟩
  · rw [d1, crossCount_congr _ _ d5 g.edges]
    have hcnt := List.Perm.countP_eq
      (fun e =>
        !(rootD (contractLoop 2 g.edges.length (UnionFind.init g.n) [] g.edges rand).uf.subsets
            e.tail ==
          rootD (contractLoop 2 g.edges.length (UnionFind.init g.n) [] g.edges rand).uf.subsets
            e.head)) hperm
    rw [crossCount, ← hcnt, List.countP_append]
    have hzero : List.countP
        (fun e =>
          !(rootD (contractLoop 2 g.edges.length (UnionFind.init g.n) [] g.edges rand).uf.subsets
              e.tail ==
            rootD (contractLoop 2 g.edges.length (UnionFind.init g.n) [] g.edges rand).uf.subsets
              e.head))
        (contractLoop 2 g.edges.length (UnionFind.init g.n) [] g.edges rand).consumed = 0 := by
      rw [List.countP_eq_zero]
      intro e he
      rcases c6 e he with hin | hroot
      · exact absurd hin (List.not_mem_nil e)
      · simp [hroot]
    rw [hzero, crossCount]
    exact Nat.zero_add _
  · rw [d1, crossCount]
    have hle := List.countP_le_length
      (fun e =>
        !(rootD (contractLoop 2 g.edges.length (UnionFind.init g.n) [] g.edges rand).uf.subsets
            e.tail ==
          rootD (contractLoop 2 g.edges.length (UnionFind.init g.n) [] g.edges rand).uf.subsets
            e.head))
      (l := (contractLoop 2 g.edges.length (UnionFind.init g.n) [] g.edges rand).remaining)
    have hlen := hperm.length_eq
    rw [List.length_append] at hlen
    omega
  · rw [d4, c1]

theorem ks_contract_spec (g : ContractedGraph) (kk : Nat) (rand : List Nat)
    (hinv : UFInv g.uf) (hconn : ConnUF g.uf g.edges) (hok : edgesOk g.uf g.edges)
    (h2 : 2 ≤ kk) (hkk : kk ≤ g.uf.nb_subsets) :
    (ks_contract g kk rand).fst.n = kk ∧
    (ks_contract g kk rand).fst.uf.nb_subsets = kk ∧
    ((contractLoop kk g.edges.length g.uf [] g.edges rand).consumed ++
      (contractLoop kk g.edges.length g.uf [] g.edges rand).remaining).Perm g.edges ∧
    (ks_contract g kk rand).fst.edges =
      crossFilter (ks_contract g kk rand).fst.uf.subsets
        (contractLoop kk g.edges.length g.uf [] g.edges rand).remaining := by
  obtain ⟨c1, c2, c3, c4, c5, c6⟩ :=
    contractLoop_spec kk g.edges.length g.edges (Nat.le_refl _) g.uf [] rand
      g.edges.length (Nat.le_refl _) hinv hconn hok h2 hkk
  obtain ⟨f1, f2, f3, f4, f5⟩ :=
    filterCrossing_spec (contractLoop kk g.edges.length g.uf [] g.edges rand).uf
      (contractLoop kk g.edges.length g.uf [] g.edges rand).remaining c2.1
  have hedges : (ks_contract g kk rand).fst.edges =
      (filterCrossing (contractLoop kk g.edges.length g.uf [] g.edges rand).uf
        (contractLoop kk g.edges.length g.uf [] g.edges rand).remaining).fst := rfl
  have huf : (ks_contract g kk rand).fst.uf =
      (filterCrossing (contractLoop kk g.edges.length g.uf [] g.edges rand).uf
        (contractLoop kk g.edges.length g.uf [] g.edges rand).remaining).snd := rfl
  refine ⟨rfl, ?_, ?_, ?_⟩
  · rw [huf, f4, c1]
  · have hc := c4
    rwa [List.nil_append] at hc
  · rw [hedges, huf, f1, crossFilter_congr _ _ f5 _]

/-- One internal-transition step of the Karger-Stein main loop: for a task
with more than 6 super-vertices, the task is replaced by exactly the two
children obtained by two sequential contract calls from the same parent
state, the second consuming the random stream where the first left it. -/
theorem ks_loop_internal (fuel : Nat) (g : ContractedGraph) (stack : List ContractedGraph)
    (best : GraphCut) (rand : List Nat) (h6 : ¬ g.n ≤ 6) :
    ks_loop (fuel + 1) (g :: stack) best rand =
      ks_loop fuel
        ((ks_contract g (ks_t g.n) (ks_contract g (ks_t g.n) rand).snd).fst ::
          (ks_contract g (ks_t g.n) rand).fst :: stack)
        best
        (ks_contract g (ks_t g.n) (ks_contract g (ks_t g.n) rand).snd).snd := by
  conv_lhs => rw [ks_loop.eq_def]
  dsimp only
  rw [if_neg h6]

/-- Path graphs are connected: if consecutive vertices are joined by listed
edges, the whole contracted graph is connected. -/
theorem conn_of_chain (uf : UnionFind) (es : List Edge)
    (hch : ∀ i, i < uf.subsets.length - 1 → edgeMem es i (i + 1) = true) :
    ConnUF uf es := by
  have h0 : ∀ c, c < uf.subsets.length → Relation.EqvGen (connRel uf es) 0 c := by
    intro c
    induction c with
    | zero => intro _; exact Relation.EqvGen.refl 0
    | succ c ihc =>
      intro hc
      refine Relation.EqvGen.trans 0 c (c + 1) (ihc (by omega)) ?_
      exact Relation.EqvGen.rel c (c + 1) (Or.inr (hch c (by omega)))
  intro a b ha hb
  exact Relation.EqvGen.trans a 0 b (Relation.EqvGen.symm 0 a (h0 a ha)) (h0 b hb)

/-- C1: evaluation of GraphCut::get_partitions on the two-subset DSU state
uC1 (reachable by three merges): vertex 3 has the same root as vertex 0, yet
get_partitions places it in Q, because the source compares the raw stored
parent ids subsets[i].id with subsets[0].id instead of the roots.  This
contradicts the specified root-based grouping. -/
theorem claim_C1 : uC1.nb_subsets = 2 ∧
    rootD uC1.subsets 3 = rootD uC1.subsets 0 ∧
    cutC1.get_partitions.fst = [0, 1, 2] ∧
    cutC1.get_partitions.snd = [3, 4] := by decide

/-- C2: on the connected 2-vertex multigraph g2 with two parallel edges the
single leaf cut has cut_size 2 = n, which does not strictly improve the
sentinel GraphCut{n, {{}}}; karger_stein_union_find therefore returns the
sentinel, whose DSU has 0 subsets instead of the claimed 2.  The run is
deterministic (the leaf contraction needs zero draws). -/
theorem claim_C2 :
    ConnUF (UnionFind.init g2.n) g2.edges ∧
    (karger_stein_union_find g2 []).fst.cut_size = 2 ∧
    (karger_stein_union_find g2 []).fst.uf.nb_subsets = 0 ∧
    (karger_stein_union_find g2 []).fst.uf.subsets = [] := by
  refine ⟨conn_of_chain _ _ (by decide), by decide, by decide, by decide⟩

/-- C3: on the connected 2-vertex multigraph g3 with three parallel edges,
karger_stein_union_find returns the sentinel with cut_size 2, while all 3
original edges cross the partition encoded by the returned (empty) DSU, so
recomputing the crossing count does not reproduce cut_size. -/
theorem claim_C3 :
    ConnUF (UnionFind.init g3.n) g3.edges ∧
    (karger_stein_union_find g3 []).fst.cut_size = 2 ∧
    crossCount (karger_stein_union_find g3 []).fst.uf.subsets g3.edges = 3 ∧
    ¬ crossCount (karger_stein_union_find g3 []).fst.uf.subsets g3.edges =
        (karger_stein_union_find g3 []).fst.cut_size := by
  refine ⟨conn_of_chain _ _ (by decide), by decide, by decide, by decide⟩

/-- C4: on a connected valid contracted graph, the shared contraction loop
(used verbatim by both karger_union_find and the Karger-Stein contract
lambda) run with 2 ≤ k ≤ current subset count stops with exactly k subsets,
consumes at most all edges (consumed and remaining split the edge list),
and when k already equals the subset count it performs zero iterations,
returning the state with the cursor unmoved. -/
theorem claim_C4 (uf : UnionFind) (edges : List Edge) (rand : List Nat) (k : Nat)
    (hinv : UFInv uf) (hconn : ConnUF uf edges) (hok : edgesOk uf edges)
    (h2 : 2 ≤ k) (hk : k ≤ uf.nb_subsets) :
    (contractLoop k edges.length uf [] edges rand).uf.nb_subsets = k ∧
    (contractLoop k edges.length uf [] edges rand).consumed.length +
      (contractLoop k edges.length uf [] edges rand).remaining.length = edges.length ∧
    (k = uf.nb_subsets →
      contractLoop k edges.length uf [] edges rand = ⟨uf, [], edges, rand⟩) := by
  obtain ⟨c1, _, _, c4, _, _⟩ :=
    contractLoop_spec k edges.length edges (Nat.le_refl _) uf [] rand edges.length
      (Nat.le_refl _) hinv hconn hok h2 hk
  refine ⟨c1, ?_, ?_⟩
  · have hl := c4.length_eq
    rw [List.length_append, List.nil_append] at hl
    exact hl
  · intro hkeq
    exact contractLoop_done k edges.length uf [] edges rand hkeq.symm

theorem claim_C4_witness :
    UFInv (UnionFind.init 2) ∧ edgesOk (UnionFind.init 2) [⟨0, 1⟩] ∧
    (2 : Nat) ≤ (UnionFind.init 2).nb_subsets ∧
    (contractLoop 2 1 (UnionFind.init 2) [] [⟨0, 1⟩] []).uf.nb_subsets = 2 := by
  refine ⟨by decide, by decide, by decide, ?_⟩
  exact (claim_C4 (UnionFind.init 2) [⟨0, 1⟩] [] 2 (by decide)
    (conn_of_chain _ _ (by decide)) (by decide) (by decide) (by decide)).1

/-- C5: one internal step of the Karger-Stein loop on a task with n > 6
components replaces the task by exactly two children pushed on the stack;
each child is produced by an independent contraction of the same parent
state (the parent task g appears unchanged in both defining equations,
modelling the deep DSU copy of line 117) down to t = ks_t n = 1 + ⌈n/√2⌉
components, the second child consuming the random stream where the first
left it; each child carries exactly the parent's unconsumed edges whose
endpoints lie in different subsets of that child's DSU. -/
theorem claim_C5 (g : ContractedGraph) (stack : List ContractedGraph) (best : GraphCut)
    (rand : List Nat) (fuel : Nat) (h6 : 6 < g.n) (hinv : UFInv g.uf)
    (hconn : ConnUF g.uf g.edges) (hok : edgesOk g.uf g.edges)
    (hn : g.uf.nb_subsets = g.n) :
    ks_loop (fuel + 1) (g :: stack) best rand =
      ks_loop fuel
        ((ks_contract g (ks_t g.n) (ks_contract g (ks_t g.n) rand).snd).fst ::
          (ks_contract g (ks_t g.n) rand).fst :: stack)
        best
        (ks_contract g (ks_t g.n) (ks_contract g (ks_t g.n) rand).snd).snd ∧
    (ks_contract g (ks_t g.n) rand).fst.n = ks_t g.n ∧
    (ks_contract g (ks_t g.n) rand).fst.uf.nb_subsets = ks_t g.n ∧
    ((contractLoop (ks_t g.n) g.edges.length g.uf [] g.edges rand).consumed ++
      (contractLoop (ks_t g.n) g.edges.length g.uf [] g.edges rand).remaining).Perm
        g.edges ∧
    (ks_contract g (ks_t g.n) rand).fst.edges =
      crossFilter (ks_contract g (ks_t g.n) rand).fst.uf.subsets
        (contractLoop (ks_t g.n) g.edges.length g.uf [] g.edges rand).remaining ∧
    (ks_contract g (ks_t g.n) (ks_contract g (ks_t g.n) rand).snd).fst.n = ks_t g.n ∧
    (ks_contract g (ks_t g.n) (ks_contract g (ks_t g.n) rand).snd).fst.uf.nb_subsets =
      ks_t g.n ∧
    ((contractLoop (ks_t g.n) g.edges.length g.uf [] g.edges
        (ks_contract g (ks_t g.n) rand).snd).consumed ++
      (contractLoop (ks_t g.n) g.edges.length g.uf [] g.edges
        (ks_contract g (ks_t g.n) rand).snd).remaining).Perm g.edges ∧
    (ks_contract g (ks_t g.n) (ks_contract g (ks_t g.n) rand).snd).fst.edges =
      crossFilter
        (ks_contract g (ks_t g.n) (ks_contract g (ks_t g.n) rand).snd).fst.uf.subsets
        (contractLoop (ks_t g.n) g.edges.length g.uf [] g.edges
          (ks_contract g (ks_t g.n) rand).snd).remaining := by
  have h2t : 2 ≤ ks_t g.n := ks_t_ge2 g.n (by omega)
  have htle : ks_t g.n ≤ g.uf.nb_subsets := by
    rw [hn]
    exact Nat.le_of_lt (ks_t_lt g.n (by omega))
  obtain ⟨a1, a2, a3, a4⟩ := ks_contract_spec g (ks_t g.n) rand hinv hconn hok h2t htle
  obtain ⟨b1, b2, b3, b4⟩ := ks_contract_spec g (ks_t g.n)
    (ks_contract g (ks_t g.n) rand).snd hinv hconn hok h2t htle
  exact ⟨ks_loop_internal fuel g stack best rand (by omega), a1, a2, a3, a4, b1, b2, b3, b4⟩

theorem claim_C5_witness :
    6 < task7.n ∧ UFInv task7.uf ∧ edgesOk task7.uf task7.edges ∧
    task7.uf.nb_subsets = task7.n ∧
    (ks_contract task7 (ks_t task7.n) []).fst.n = ks_t task7.n := by
  refine ⟨by decide, by decide, by decide, by decide, ?_⟩
  exact (claim_C5 task7 [] ⟨0, UnionFind.init 0⟩ [] 0 (by decide) (by decide)
    (conn_of_chain _ _ (by decide)) (by decide) (by decide)).2.1

/-- C6: counterexample to the literal no-op reading — on the reachable
state uC6, elements 3 and 1 lie in the same subset, yet merge(3, 1) changes
the stored state (its internal find path-compresses node 3 onto the root),
so the merge is not a no-op on the representation. -/
theorem claim_C6_cex : rootD uC6.subsets 3 = rootD uC6.subsets 1 ∧
    ¬ uC6.merge 3 1 = uC6 := by decide

/-- C6 (amended): on a well-formed state, merging two elements of the same
subset leaves the partition, all sizes and nb_subsets unchanged (though
path compression may repoint visited nodes); otherwise the smaller root is
attached under the larger (ties to the first find's root), the surviving
root's size becomes the sum of both subset sizes, and nb_subsets decreases
by exactly one. -/
theorem claim_C6 (uf : UnionFind) (x y : Nat) (hinv : UFInv uf)
    (hx : x < uf.subsets.length) (hy : y < uf.subsets.length) :
    (rootD uf.subsets x = rootD uf.subsets y →
      ((uf.merge x y).nb_subsets = uf.nb_subsets ∧
       (∀ z, rootD (uf.merge x y).subsets z = rootD uf.subsets z) ∧
       (∀ z, sz (uf.merge x y).subsets z = sz uf.subsets z))) ∧
    (¬ rootD uf.subsets x = rootD uf.subsets y →
      ((uf.merge x y).nb_subsets + 1 = uf.nb_subsets ∧
       par (uf.merge x y).subsets (mLoser uf x y) = mWinner uf x y ∧
       sz (uf.merge x y).subsets (mWinner uf x y) =
         sz uf.subsets (rootD uf.subsets x) + sz uf.subsets (rootD uf.subsets y))) := by
  obtain ⟨hwf, hlen, hsame, hdiff⟩ := merge_spec uf x y hinv.1 hx hy
  constructor
  · intro hc
    obtain ⟨h1, h2, h3, _⟩ := hsame hc
    exact ⟨h1, h2, h3⟩
  · intro hc
    obtain ⟨h1, _, _, h4, h5, _⟩ := hdiff hc
    refine ⟨?_, h4, h5⟩
    have hLroot : par uf.subsets (mLoser uf x y) = mLoser uf x y := by
      rcases mLoser_cases uf x y with hl | hl
      · rw [hl]; exact rootD_isRoot uf.subsets hinv.1 x
      · rw [hl]; exact rootD_isRoot uf.subsets hinv.1 y
    have hLlt : mLoser uf x y < uf.subsets.length := by
      rcases mLoser_cases uf x y with hl | hl
      · rw [hl]; exact rootD_lt uf.subsets hinv.1 x hx
      · rw [hl]; exact rootD_lt uf.subsets hinv.1 y hy
    have hpos : 1 ≤ nbRoots uf.subsets := by
      rw [nbRoots]
      refine Finset.card_pos.mpr ⟨mLoser uf x y, ?_⟩
      simp only [Finset.mem_filter, Finset.mem_range]
      exact ⟨hLlt, hLroot⟩
    have hnb := hinv.2
    omega

theorem claim_C6_witness :
    UFInv (UnionFind.init 2) ∧ (0 : Nat) < (UnionFind.init 2).subsets.length ∧
    (1 : Nat) < (UnionFind.init 2).subsets.length ∧
    ((UnionFind.init 2).merge 0 1).nb_subsets + 1 = (UnionFind.init 2).nb_subsets := by
  refine ⟨by decide, by decide, by decide, ?_⟩
  exact ((claim_C6 (UnionFind.init 2) 0 1 (by decide) (by decide) (by decide)).2
    (by decide)).1

/-- C7: on every reachable state and in-range element x, find(x) returns
the root of the chain of x — the unique ancestor that is a fixed point of
the parent map — find is idempotent, after the call every node on the walk
from x points directly to that root, and the partition is unchanged. -/
theorem claim_C7 (uf : UnionFind) (x : Nat) (hr : Reach uf)
    (hx : x < uf.subsets.length) :
    (uf.find x).fst = rootD uf.subsets x ∧
    par uf.subsets (rootD uf.subsets x) = rootD uf.subsets x ∧
    (∃ k, pIter uf.subsets k x = rootD uf.subsets x) ∧
    (∀ r k, pIter uf.subsets k x = r → par uf.subsets r = r →
      r = rootD uf.subsets x) ∧
    ((uf.find x).snd.find (uf.find x).fst).fst = (uf.find x).fst ∧
    (∀ k, par (uf.find x).snd.subsets (pIter uf.subsets k x) = rootD uf.subsets x) ∧
    (∀ a b, (rootD (uf.find x).snd.subsets a = rootD (uf.find x).snd.subsets b ↔
      rootD uf.subsets a = rootD uf.subsets b)) := by
  have hinv := reach_inv uf hr
  obtain ⟨hf, hnb, hlen, hwf, hroot, hsz, hriff, hpts⟩ := find_spec uf x hinv.1
  refine ⟨hf, rootD_isRoot _ hinv.1 x, rootD_reaches _ hinv.1 x, ?_, ?_, hpts, ?_⟩
  · intro r k hk hroot2
    exact (rootD_eq_of_hit _ hinv.1 x k r hk hroot2).symm
  · obtain ⟨hf2, _, _, _, _, _, _, _⟩ := find_spec (uf.find x).snd (uf.find x).fst hwf
    rw [hf2, hf, hroot]
    exact rootD_of_root _ _ (rootD_isRoot _ hinv.1 x)
  · intro a b
    rw [hroot a, hroot b]

theorem claim_C7_witness :
    (((UnionFind.init 3).merge 0 1).find 1).fst =
      rootD ((UnionFind.init 3).merge 0 1).subsets 1 ∧
    ((((UnionFind.init 3).merge 0 1).find 1).snd.find
      (((UnionFind.init 3).merge 0 1).find 1).fst).fst =
        (((UnionFind.init 3).merge 0 1).find 1).fst := by
  have h := claim_C7 ((UnionFind.init 3).merge 0 1) 1
    (Reach.merge (UnionFind.init 3) 0 1 (Reach.init 3) (by decide) (by decide))
    (by decide)
  exact ⟨h.1, h.2.2.2.2.1⟩

/-- C8: after any sequence of in-range finds and merges starting from a
constructed state, the number of root records equals nb_subsets and every
parent chain terminates at a root; a fresh DSU over n elements reports n
subsets and find(x) = x for all x < n. -/
theorem claim_C8 :
    (∀ uf, Reach uf → nbRoots uf.subsets = uf.nb_subsets ∧
      (∀ x, x < uf.subsets.length →
        ∃ k, par uf.subsets (pIter uf.subsets k x) = pIter uf.subsets k x)) ∧
    (∀ n, (UnionFind.init n).nb_subsets = n ∧
      (∀ x, x < n → ((UnionFind.init n).find x).fst = x)) := by
  constructor
  · intro uf hr
    have hinv := reach_inv uf hr
    exact ⟨hinv.2, fun x hx => ⟨uf.subsets.length, hinv.1.2 x hx⟩⟩
  · intro n
    refine ⟨rfl, fun x _ => ?_⟩
    show rootD (UnionFind.init n).subsets x = x
    exact init_rootD n x

theorem claim_C8_witness :
    nbRoots (UnionFind.init 2).subsets = (UnionFind.init 2).nb_subsets :=
  (claim_C8.1 (UnionFind.init 2) (Reach.init 2)).1

/-- C9: on a connected valid input, karger_union_find leaves the vertex
count unchanged and leaves the edge vector a permutation of the original:
no edge added, removed or altered, only reordered by the in-place swaps. -/
theorem claim_C9 (g : EVGraph) (rand : List Nat)
    (hconn : ConnUF (UnionFind.init g.n) g.edges)
    (hok : edgesOk (UnionFind.init g.n) g.edges) (hn : 2 ≤ g.n) :
    (karger_union_find g rand).snd.fst.n = g.n ∧
    (karger_union_find g rand).snd.fst.edges.Perm g.edges := by
  obtain ⟨_, _, _, c4, _, _⟩ :=
    contractLoop_spec 2 g.edges.length g.edges (Nat.le_refl _) (UnionFind.init g.n) []
      rand g.edges.length (Nat.le_refl _) (init_inv g.n) hconn hok (Nat.le_refl 2)
      (by exact hn)
  refine ⟨rfl, ?_⟩
  have hperm := c4
  rw [List.nil_append] at hperm
  exact hperm

theorem claim_C9_witness :
    edgesOk (UnionFind.init 2) [⟨0, 1⟩] ∧
    (karger_union_find ⟨2, [⟨0, 1⟩]⟩ []).snd.fst.n = 2 ∧
    (karger_union_find ⟨2, [⟨0, 1⟩]⟩ []).snd.fst.edges.Perm [⟨0, 1⟩] := by
  refine ⟨by decide, ?_, ?_⟩
  · exact (claim_C9 ⟨2, [⟨0, 1⟩]⟩ [] (conn_of_chain _ _ (by decide)) (by decide)
      (by decide)).1
  · exact (claim_C9 ⟨2, [⟨0, 1⟩]⟩ [] (conn_of_chain _ _ (by decide)) (by decide)
      (by decide)).2

/-- C10: karger_stein_union_find takes the input graph by const reference
and copies its edges into the root task (line 137) before any shuffling, so
the input graph — vertex count and edge vector, contents and order — is
returned unchanged by the model. -/
theorem claim_C10 (g : EVGraph) (rand : List Nat) :
    (karger_stein_union_find g rand).snd = g := rfl

end KargerSpec
